import Mathlib

/-!
ring_buf_float: a fixed-capacity ring buffer of float samples
=============================================================

A shallow embedding of `ring_buf_float.c` / `ring_buf_float.h` and a
verification of its documented behaviour.

Conventions of the embedding
----------------------------

* `size_t` values are natural numbers; the two arithmetic operations the code
  performs on them (`+`, `-`, and the pre-increment `++value`) are taken modulo
  `2 ^ w`, where `w` is the width of `size_t` in bits.  `w` is an index of the
  control-structure type, so every function reads it from its argument.
* `float_t` samples are only ever copied (never compared or computed with), so
  the sample type is a type parameter `α`.
* The caller-owned storage array `me->buffer` is a `List α`; its length is the
  number of slots the caller really allocated.  An access outside the array
  (undefined behaviour in C) and a failed `assert` both make a function return
  `none`.
* A handle is never `NULL` and the output pointer `data` is never `NULL`: the
  corresponding `assert`s are discharged by the types.  The caller's output
  location is passed in and returned, so that "the output is untouched" can be
  stated.  The output array of `ring_buf_peek` is assumed not to overlap the
  storage array.
* `int` results are `Int` (`0` success, `-1` failure).
-/

namespace RingBufFloat

/-! ## Data model -/

/-- Pool size of the static allocator: `#define MAX_RBUFS 2`. -/
def MAX_RBUFS : Nat := 2

/-- The control structure `struct ring_buf_t`; `max` is the capacity. -/
structure ring_buf_t (w : Nat) (α : Type) where
  buffer : List α
  head : Nat
  tail : Nat
  max : Nat
  full : Bool
deriving DecidableEq, Repr

/-- The process-wide state of the static allocator: `rbuf_array[MAX_RBUFS]` and
the `uint16_t rbufs_number` of slots already claimed. -/
structure pool_t (w : Nat) (α : Type) where
  rbuf_array : List (ring_buf_t w α)
  rbufs_number : Nat
deriving DecidableEq, Repr

variable {w : Nat} {α : Type}

/-- Addition of two `size_t` values (wraps modulo `2 ^ w`). -/
def size_t_add (w a b : Nat) : Nat := (a + b) % 2 ^ w

/-- Subtraction of two `size_t` values (wraps modulo `2 ^ w`). -/
def size_t_sub (w a b : Nat) : Nat := (a % 2 ^ w + (2 ^ w - b % 2 ^ w)) % 2 ^ w

/-- Zero-initialised static storage: the state of the pool at program start. -/
def pool_init (w : Nat) (α : Type) : pool_t w α :=
  { rbuf_array := List.replicate MAX_RBUFS
      { buffer := [], head := 0, tail := 0, max := 0, full := false },
    rbufs_number := 0 }

/-! ## Private functions -/

/-- Source `advance_headtail_value`: `if (++value == max) value = 0; return value;`. -/
def advance_headtail_value (w : Nat) (value max : Nat) : Nat :=
  let value := size_t_add w value 1
  if value = max then 0 else value

/-- Source `ring_buf_full`: `return me->full;`. -/
def ring_buf_full (me : ring_buf_t w α) : Bool := me.full

/-- Source `ring_buf_empty`: `return (!ring_buf_full(me) && (me->head == me->tail));`. -/
def ring_buf_empty (me : ring_buf_t w α) : Bool :=
  !ring_buf_full me && (me.head == me.tail)

/-- Source `advance_head_pointer`: when full, the tail is advanced first; then
the head is advanced and `full` is recomputed as `head == tail`. -/
def advance_head_pointer (me : ring_buf_t w α) : ring_buf_t w α :=
  let me : ring_buf_t w α := if ring_buf_full me then
      { me with tail := advance_headtail_value w me.tail me.max }
    else me
  let me : ring_buf_t w α := { me with head := advance_headtail_value w me.head me.max }
  { me with full := (me.head == me.tail) }

/-! ## API -/

/-- Source `ring_buf_reset`: `head = 0; tail = 0; full = false;`. -/
def ring_buf_reset (me : ring_buf_t w α) : ring_buf_t w α :=
  { me with head := 0, tail := 0, full := false }

/-- Source `ring_buf_static_init`.  The outer `Option` is `none` when an
`assert` fails; the inner one is the returned handle (the index of the claimed
slot of `rbuf_array`), `none` standing for `NULL`. -/
def ring_buf_static_init (pool : pool_t w α) (buffer : List α) (size : Nat) :
    Option (pool_t w α × Option Nat) :=
  if size = 0 then none
  else if MAX_RBUFS > pool.rbufs_number then
    match pool.rbuf_array[pool.rbufs_number]? with
    | none => none
    | some slot =>
      let rbufs_number := (pool.rbufs_number + 1) % 2 ^ 16
      let rbuf : ring_buf_t w α := ring_buf_reset { slot with buffer := buffer, max := size }
      if ring_buf_empty rbuf then
        some ({ rbuf_array := pool.rbuf_array.set pool.rbufs_number rbuf,
                rbufs_number := rbufs_number }, some pool.rbufs_number)
      else none
  else some (pool, none)

/-- Source `ring_buf_dynamic_init`.  `raw` is the uninitialised structure
`malloc` returned (`none` when `malloc` failed, which trips `assert(rbuf)`). -/
def ring_buf_dynamic_init (raw : Option (ring_buf_t w α)) (buffer : List α) (size : Nat) :
    Option (ring_buf_t w α) :=
  if size = 0 then none
  else
    match raw with
    | none => none
    | some slot =>
      let rbuf : ring_buf_t w α := ring_buf_reset { slot with buffer := buffer, max := size }
      if ring_buf_empty rbuf then some rbuf else none

/-- Source `ring_buf_size`. -/
def ring_buf_size (me : ring_buf_t w α) : Nat :=
  let size := me.max
  if !ring_buf_full me then
    if me.head ≥ me.tail then
      size_t_sub w me.head me.tail
    else
      size_t_sub w (size_t_add w me.max me.head) me.tail
  else size

/-- Source `ring_buf_capacity`: `return me->max;`. -/
def ring_buf_capacity (me : ring_buf_t w α) : Nat := me.max

/-- Source `ring_buf_put`: `me->buffer[me->head] = data; advance_head_pointer(me);`. -/
def ring_buf_put (me : ring_buf_t w α) (data : α) : Option (ring_buf_t w α) :=
  if me.head < me.buffer.length then
    some (advance_head_pointer { me with buffer := me.buffer.set me.head data })
  else none

/-- Source `ring_buf_try_put`: returns the result code and the new state. -/
def ring_buf_try_put (me : ring_buf_t w α) (data : α) : Option (Int × ring_buf_t w α) :=
  let r : Int := -1
  if !ring_buf_full me then
    if me.head < me.buffer.length then
      some (0, advance_head_pointer { me with buffer := me.buffer.set me.head data })
    else none
  else some (r, me)

/-- Source `ring_buf_get`: `data` is the old content of the caller's output
location; the result is the code, the new state and the new content of the
output location. -/
def ring_buf_get (me : ring_buf_t w α) (data : α) : Option (Int × ring_buf_t w α × α) :=
  let r : Int := -1
  if !ring_buf_empty me then
    match me.buffer[me.tail]? with
    | none => none
    | some x =>
      some (0, { me with tail := advance_headtail_value w me.tail me.max, full := false }, x)
  else some (r, me, data)

/-- The `for` loop of `ring_buf_peek`, with `n = look_ahead_counter - i`
iterations still to run: `data[i] = me->buffer[pos]; pos = advance(pos); i++`. -/
def ring_buf_peek_loop (me : ring_buf_t w α) : Nat → Nat → Nat → List α → Option (List α)
  | 0, _, _, data => some data
  | n + 1, i, pos, data =>
    match me.buffer[pos]? with
    | none => none
    | some x =>
      if i < data.length then
        ring_buf_peek_loop me n (i + 1) (advance_headtail_value w pos me.max) (data.set i x)
      else none

/-- Source `ring_buf_peek`: `data` is the caller's output array; the result is
the code, the (never modified) state and the new content of the output array. -/
def ring_buf_peek (me : ring_buf_t w α) (data : List α) (look_ahead_counter : Nat) :
    Option (Int × ring_buf_t w α × List α) :=
  let r : Int := -1
  if ring_buf_empty me || decide (look_ahead_counter > ring_buf_size me) then
    some (r, me, data)
  else
    match ring_buf_peek_loop me look_ahead_counter 0 me.tail data with
    | none => none
    | some out => some (0, me, out)

/-! ## Call sequences

Drivers that issue several API calls in a row; they thread the state (and the
caller's output location) from one call to the next exactly as a C caller
holding the handle would. -/

/-- Calls `ring_buf_try_put` once for each value, in order; returns the list of
result codes and the final state. -/
def try_put_all (me : ring_buf_t w α) : List α → Option (List Int × ring_buf_t w α)
  | [] => some ([], me)
  | v :: vs =>
    match ring_buf_try_put me v with
    | none => none
    | some (r, me1) =>
      match try_put_all me1 vs with
      | none => none
      | some (rs, me2) => some (r :: rs, me2)

/-- Calls `ring_buf_put` once for each value, in order; returns the final state. -/
def put_all (me : ring_buf_t w α) : List α → Option (ring_buf_t w α)
  | [] => some me
  | v :: vs =>
    match ring_buf_put me v with
    | none => none
    | some me1 => put_all me1 vs

/-- Calls `ring_buf_get` `n` times on the same output location (initially
holding `data`); returns, for each call, its result code and the content of the
output location after it, and the final state. -/
def get_n (me : ring_buf_t w α) : Nat → α → Option (List (Int × α) × ring_buf_t w α)
  | 0, _ => some ([], me)
  | n + 1, data =>
    match ring_buf_get me data with
    | none => none
    | some (r, me1, x) =>
      match get_n me1 n x with
      | none => none
      | some (rs, me2) => some ((r, x) :: rs, me2)

/-- One call of the insertion/removal interface the size law speaks of; `get`
carries the old content of the caller's output location. -/
inductive call (α : Type) where
  | try_put (v : α)
  | get (data : α)
deriving DecidableEq, Repr

/-- Issues the calls in order; returns the final state, the number of
`ring_buf_try_put` calls that returned `0` and the number of `ring_buf_get`
calls that returned `0`. -/
def run_calls (me : ring_buf_t w α) : List (call α) → Option (ring_buf_t w α × Nat × Nat)
  | [] => some (me, 0, 0)
  | call.try_put v :: cs =>
    match ring_buf_try_put me v with
    | none => none
    | some (r, me1) =>
      match run_calls me1 cs with
      | none => none
      | some (me2, puts, gets) => some (me2, (if r = 0 then puts + 1 else puts), gets)
  | call.get data :: cs =>
    match ring_buf_get me data with
    | none => none
    | some (r, me1, _) =>
      match run_calls me1 cs with
      | none => none
      | some (me2, puts, gets) => some (me2, puts, (if r = 0 then gets + 1 else gets))

/-- One call of any state-touching operation of the API on an existing handle;
`get` and `peek` carry the caller's output location / output array. -/
inductive op (α : Type) where
  | put (v : α)
  | try_put (v : α)
  | get (data : α)
  | peek (data : List α) (look_ahead_counter : Nat)
  | reset
deriving DecidableEq, Repr

/-- The state after one operation (`none` when the call has no defined result). -/
def apply_op (me : ring_buf_t w α) : op α → Option (ring_buf_t w α)
  | op.put v => ring_buf_put me v
  | op.try_put v => (ring_buf_try_put me v).map (fun res => res.2)
  | op.get data => (ring_buf_get me data).map (fun res => res.2.1)
  | op.peek data n => (ring_buf_peek me data n).map (fun res => res.2.1)
  | op.reset => some (ring_buf_reset me)

/-- The state after a sequence of operations. -/
def run_ops (me : ring_buf_t w α) : List (op α) → Option (ring_buf_t w α)
  | [] => some me
  | o :: os =>
    match apply_op me o with
    | none => none
    | some me1 => run_ops me1 os

/-- The control structure `me` is what a successful construction over the
storage `buffer` with capacity `size` hands to the caller: the result of
`ring_buf_dynamic_init`, or the pool slot `ring_buf_static_init` returned. -/
def constructed (me : ring_buf_t w α) (buffer : List α) (size : Nat) : Prop :=
  (∃ raw, ring_buf_dynamic_init raw buffer size = some me) ∨
  (∃ pool pool1 idx, ring_buf_static_init pool buffer size = some (pool1, some idx) ∧
    pool1.rbuf_array[idx]? = some me)

/-! ## Well-formed states -/

/-- Well-formed control structure: the capacity is positive, fits a `size_t`,
and the bound storage really has that many slots; both indices are below the
capacity; the `full` flag is only set when `head == tail`. -/
structure wf (me : ring_buf_t w α) : Prop where
  cap_pos : 1 ≤ me.max
  cap_rep : me.max < 2 ^ w
  storage : me.max ≤ me.buffer.length
  head_lt : me.head < me.max
  tail_lt : me.tail < me.max
  full_eq : me.full = true → me.head = me.tail

/-- The queue `l` is what the buffer logically holds: `l` has `ring_buf_size`
elements and its `i`-th element is the slot `i` positions after `tail`. -/
def holds (me : ring_buf_t w α) (l : List α) : Prop :=
  l.length = ring_buf_size me ∧
    ∀ i, i < l.length → l[i]? = me.buffer[(me.tail + i) % me.max]?

/-- The index-range predicate: both indices are below the capacity. -/
def index_range (me : ring_buf_t w α) : Prop := me.head < me.max ∧ me.tail < me.max

/-- The logical contents of a buffer, oldest first: the list of the slots
`storage[(tail + i) mod capacity]` for `i = 0 .. ring_buf_size - 1`. -/
def contents (me : ring_buf_t w α) : List α :=
  (List.range (ring_buf_size me)).filterMap (fun i => me.buffer[(me.tail + i) % me.max]?)

/-- Calls `ring_buf_static_init` once for each request (storage, size), in
order, on the evolving pool; returns the final pool and the handle each call
returned (`none` standing for `NULL`). -/
def static_init_all (pool : pool_t w α) :
    List (List α × Nat) → Option (pool_t w α × List (Option Nat))
  | [] => some (pool, [])
  | (buffer, size) :: rest =>
    match ring_buf_static_init pool buffer size with
    | none => none
    | some (pool1, r) =>
      match static_init_all pool1 rest with
      | none => none
      | some (pool2, rs) => some (pool2, r :: rs)

/-! ## Sanity checks of the embedding on concrete inputs -/

example : ring_buf_try_put (⟨[0, 0, 0], 0, 0, 3, false⟩ : ring_buf_t 8 Nat) 7
    = some (0, ⟨[7, 0, 0], 1, 0, 3, false⟩) := by decide
example : ring_buf_size (⟨[0, 0, 0], 0, 2, 3, false⟩ : ring_buf_t 8 Nat) = 1 := by decide
example : ring_buf_size (⟨List.replicate 255 0, 3, 254, 255, false⟩ : ring_buf_t 8 Nat) = 4 := by
  decide
example : ring_buf_peek (⟨[5, 6, 7], 1, 2, 3, false⟩ : ring_buf_t 8 Nat) [0, 0, 0] 2
    = some (0, ⟨[5, 6, 7], 1, 2, 3, false⟩, [7, 5, 0]) := by decide

/-! ## Arithmetic of the index primitives -/

theorem mod_wrap (x m : Nat) (h : x < 2 * m) :
    x % m = if x < m then x else x - m := by
  split
  · next hlt => exact Nat.mod_eq_of_lt hlt
  · next hge =>
    rw [Nat.mod_eq_sub_mod (by omega)]
    exact Nat.mod_eq_of_lt (by omega)

theorem size_t_add_eq (w a b : Nat) (ha : a < 2 ^ w) (hb : b < 2 ^ w) :
    size_t_add w a b = if a + b < 2 ^ w then a + b else a + b - 2 ^ w := by
  unfold size_t_add
  exact mod_wrap _ _ (by omega)

theorem size_t_sub_eq (w a b : Nat) (ha : a < 2 ^ w) (hb : b < 2 ^ w) :
    size_t_sub w a b = if b ≤ a then a - b else a + 2 ^ w - b := by
  unfold size_t_sub
  rw [Nat.mod_eq_of_lt ha, Nat.mod_eq_of_lt hb, mod_wrap _ _ (by omega)]
  split <;> split <;> omega

theorem advance_eq (w value max : Nat) (hv : value < max) (hm : max < 2 ^ w) :
    advance_headtail_value w value max = if value + 1 = max then 0 else value + 1 := by
  unfold advance_headtail_value
  simp only [size_t_add_eq w value 1 (by omega) (by omega)]
  split <;> split <;> omega

theorem advance_eq_mod (w value max : Nat) (hv : value < max) (hm : max < 2 ^ w) :
    advance_headtail_value w value max = (value + 1) % max := by
  rw [advance_eq w value max hv hm, mod_wrap _ _ (by omega)]
  split <;> split <;> omega

theorem advance_lt (w value max : Nat) (hv : value < max) :
    advance_headtail_value w value max < max := by
  unfold advance_headtail_value size_t_add
  have h1 : (value + 1) % 2 ^ w ≤ value + 1 := Nat.mod_le _ _
  simp only
  split <;> omega

theorem size_eq (me : ring_buf_t w α) (h : wf me) :
    ring_buf_size me =
      if me.full = true then me.max
      else if me.tail ≤ me.head then me.head - me.tail else me.max + me.head - me.tail := by
  have h1 := h.cap_rep
  have h2 := h.head_lt
  have h3 := h.tail_lt
  unfold ring_buf_size ring_buf_full
  cases hf : me.full
  · simp only [Bool.not_false, if_true, ge_iff_le]
    rw [size_t_sub_eq w me.head me.tail (by omega) (by omega),
      size_t_add_eq w me.max me.head (by omega) (by omega)]
    simp only [Bool.false_eq_true, if_false]
    split
    · rfl
    · split
      · rw [size_t_sub_eq w _ me.tail (by omega) (by omega)]
        split <;> omega
      · rw [size_t_sub_eq w _ me.tail (by omega) (by omega)]
        split <;> omega
  · simp

/-! ## One call on a well-formed state -/

theorem try_put_not_full (me : ring_buf_t w α) (v : α) (hf : me.full = false)
    (hin : me.head < me.buffer.length) :
    ring_buf_try_put me v = some (0,
      { buffer := me.buffer.set me.head v,
        head := advance_headtail_value w me.head me.max,
        tail := me.tail, max := me.max,
        full := (advance_headtail_value w me.head me.max == me.tail) }) := by
  simp [ring_buf_try_put, ring_buf_full, advance_head_pointer, hf, hin]

theorem put_not_full (me : ring_buf_t w α) (v : α) (hf : me.full = false)
    (hin : me.head < me.buffer.length) :
    ring_buf_put me v = some
      { buffer := me.buffer.set me.head v,
        head := advance_headtail_value w me.head me.max,
        tail := me.tail, max := me.max,
        full := (advance_headtail_value w me.head me.max == me.tail) } := by
  simp [ring_buf_put, ring_buf_full, advance_head_pointer, hf, hin]

theorem put_full (me : ring_buf_t w α) (v : α) (hf : me.full = true)
    (hin : me.head < me.buffer.length) :
    ring_buf_put me v = some
      { buffer := me.buffer.set me.head v,
        head := advance_headtail_value w me.head me.max,
        tail := advance_headtail_value w me.tail me.max, max := me.max,
        full := (advance_headtail_value w me.head me.max
                  == advance_headtail_value w me.tail me.max) } := by
  simp [ring_buf_put, ring_buf_full, advance_head_pointer, hf, hin]

theorem get_not_empty (me : ring_buf_t w α) (d x : α) (hne : ring_buf_empty me = false)
    (hx : me.buffer[me.tail]? = some x) :
    ring_buf_get me d = some (0,
      { buffer := me.buffer, head := me.head,
        tail := advance_headtail_value w me.tail me.max, max := me.max, full := false }, x) := by
  simp [ring_buf_get, hne, hx]

theorem empty_iff_size_zero (me : ring_buf_t w α) (h : wf me) :
    ring_buf_empty me = true ↔ ring_buf_size me = 0 := by
  have h0 := h.cap_pos
  have h2 := h.head_lt
  have h3 := h.tail_lt
  rw [size_eq me h]
  unfold ring_buf_empty ring_buf_full
  cases hf : me.full
  · simp only [Bool.not_false, Bool.true_and, beq_iff_eq, Bool.false_eq_true, if_false]
    split <;> omega
  · simp only [Bool.not_true, Bool.false_and, Bool.false_eq_true, if_true, false_iff]
    omega

theorem size_le_capacity (me : ring_buf_t w α) (h : wf me) :
    ring_buf_size me ≤ ring_buf_capacity me := by
  have h2 := h.head_lt
  have h3 := h.tail_lt
  rw [size_eq me h]
  unfold ring_buf_capacity
  split
  · exact Nat.le_refl _
  · split <;> omega

theorem full_iff_size_capacity (me : ring_buf_t w α) (h : wf me) :
    me.full = true ↔ ring_buf_size me = me.max := by
  have h2 := h.head_lt
  have h3 := h.tail_lt
  rw [size_eq me h]
  cases hf : me.full
  · simp only [Bool.false_eq_true, if_false, false_iff]
    split <;> omega
  · simp

/-- A successful rejecting insertion on a well-formed, not full buffer. -/
theorem try_put_step (me : ring_buf_t w α) (v : α) (h : wf me) (hf : me.full = false) :
    ∃ me', ring_buf_try_put me v = some (0, me') ∧ wf me' ∧
      ring_buf_size me' = ring_buf_size me + 1 ∧
      me'.buffer = me.buffer.set me.head v ∧ me'.tail = me.tail ∧ me'.max = me.max ∧
      me'.head = advance_headtail_value w me.head me.max := by
  have h0 := h.cap_pos
  have h1 := h.cap_rep
  have h2 := h.head_lt
  have h3 := h.tail_lt
  have h4 := h.storage
  refine ⟨_, try_put_not_full me v hf (by omega), ?_, ?_, rfl, rfl, rfl, rfl⟩
  · refine ⟨h0, h1, by simpa using h4, advance_lt w _ _ h2, h3, ?_⟩
    simp
  · rw [size_eq _ (by
      refine ⟨h0, h1, by simpa using h4, advance_lt w _ _ h2, h3, ?_⟩
      simp), size_eq me h]
    simp only [hf, beq_iff_eq, Bool.false_eq_true, if_false]
    rw [advance_eq w me.head me.max h2 h1]
    split_ifs <;> omega

/-- A successful removal on a well-formed, non-empty buffer. -/
theorem get_step (me : ring_buf_t w α) (d : α) (h : wf me) (hne : ring_buf_empty me = false) :
    ∃ x me', me.buffer[me.tail]? = some x ∧ ring_buf_get me d = some (0, me', x) ∧ wf me' ∧
      ring_buf_size me' + 1 = ring_buf_size me ∧
      me' = { me with tail := advance_headtail_value w me.tail me.max, full := false } := by
  have h0 := h.cap_pos
  have h1 := h.cap_rep
  have h2 := h.head_lt
  have h3 := h.tail_lt
  have h4 := h.storage
  have h5 := h.full_eq
  have hlt : me.tail < me.buffer.length := by omega
  have hwf' : wf ({ me with tail := advance_headtail_value w me.tail me.max, full := false }) :=
    ⟨h0, h1, h4, h2, advance_lt w _ _ h3, by simp⟩
  refine ⟨me.buffer[me.tail], _, List.getElem?_eq_getElem hlt,
    get_not_empty me d _ hne (List.getElem?_eq_getElem hlt), hwf', ?_, rfl⟩
  rw [size_eq _ hwf', size_eq me h]
  simp only [Bool.false_eq_true, if_false]
  rw [advance_eq w me.tail me.max h3 h1]
  unfold ring_buf_empty ring_buf_full at hne
  cases hf : me.full
  · simp only [hf, Bool.not_false, Bool.true_and, beq_eq_false_iff_ne, ne_eq] at hne
    simp only [Bool.false_eq_true, if_false]
    split_ifs <;> omega
  · have := h5 hf
    simp only [if_true]
    split_ifs <;> omega

/-! ## The queue a buffer holds -/

theorem holds_nil (me : ring_buf_t w α) (h : wf me) (he : ring_buf_empty me = true) :
    holds me [] := by
  refine ⟨?_, ?_⟩
  · rw [((empty_iff_size_zero me h).1 he)]
    rfl
  · intro i hi
    simp at hi

theorem holds_length_le (me : ring_buf_t w α) (l : List α) (h : wf me) (hl : holds me l) :
    l.length ≤ me.max := by
  rw [hl.1]
  exact size_le_capacity me h

/-- Insertion at the head of a not full buffer appends to the queue. -/
theorem holds_insert (me me' : ring_buf_t w α) (v : α) (l : List α) (h : wf me)
    (hf : me.full = false) (hl : holds me l)
    (hsz : ring_buf_size me' = ring_buf_size me + 1)
    (hb : me'.buffer = me.buffer.set me.head v) (ht : me'.tail = me.tail)
    (hm : me'.max = me.max) : holds me' (l ++ [v]) := by
  have h2 := h.head_lt
  have h3 := h.tail_lt
  have h4 := h.storage
  obtain ⟨hlen, hget⟩ := hl
  have hs : (me.tail ≤ me.head ∧ l.length = me.head - me.tail) ∨
      (me.head < me.tail ∧ l.length = me.max + me.head - me.tail) := by
    rw [hlen, size_eq me h]
    simp only [hf, Bool.false_eq_true, if_false]
    split_ifs <;> omega
  refine ⟨by simp [hlen, hsz], ?_⟩
  intro i hi
  simp only [List.length_append, List.length_singleton] at hi
  rw [hb, ht, hm, mod_wrap _ _ (by omega)]
  by_cases hlt : i < l.length
  · rw [List.getElem?_append_left hlt, hget i hlt, mod_wrap _ _ (by omega)]
    rw [List.getElem?_set_ne]
    split_ifs <;> omega
  · have hi' : i = l.length := by omega
    subst hi'
    rw [List.getElem?_concat_length]
    have hidx : (if me.tail + l.length < me.max then me.tail + l.length
        else me.tail + l.length - me.max) = me.head := by
      split_ifs <;> omega
    rw [hidx, List.getElem?_set_self (by omega)]

/-- Removal at the tail of a non-empty buffer drops the first element of the queue. -/
theorem holds_remove (me me' : ring_buf_t w α) (x : α) (l : List α) (h : wf me)
    (hl : holds me (x :: l))
    (hsz : ring_buf_size me' + 1 = ring_buf_size me)
    (hb : me'.buffer = me.buffer)
    (ht : me'.tail = advance_headtail_value w me.tail me.max)
    (hm : me'.max = me.max) : holds me' l := by
  have h1 := h.cap_rep
  have h3 := h.tail_lt
  obtain ⟨hlen, hget⟩ := hl
  have hle := size_le_capacity me h
  unfold ring_buf_capacity at hle
  simp only [List.length_cons] at hlen hget
  refine ⟨by omega, ?_⟩
  intro i hi
  have := hget (i + 1) (by omega)
  rw [List.getElem?_cons_succ] at this
  rw [this, hb, ht, hm, advance_eq w me.tail me.max h3 h1,
    mod_wrap (me.tail + (i + 1)) _ (by omega), mod_wrap _ me.max (by split_ifs <;> omega)]
  congr 1
  split_ifs <;> omega

theorem holds_head (me : ring_buf_t w α) (x : α) (l : List α) (h : wf me)
    (hl : holds me (x :: l)) :
    me.buffer[me.tail]? = some x ∧ ring_buf_empty me = false := by
  obtain ⟨hlen, hget⟩ := hl
  have h3 := h.tail_lt
  refine ⟨?_, ?_⟩
  · have := hget 0 (by simp)
    rw [Nat.add_zero, Nat.mod_eq_of_lt h3] at this
    rw [← this]
    simp
  · cases he : ring_buf_empty me
    · rfl
    · rw [(empty_iff_size_zero me h).1 he] at hlen
      simp at hlen

theorem holds_try_put (me : ring_buf_t w α) (v : α) (l : List α) (h : wf me)
    (hf : me.full = false) (hl : holds me l) :
    ∃ me', ring_buf_try_put me v = some (0, me') ∧ wf me' ∧ holds me' (l ++ [v]) ∧
      me'.max = me.max := by
  obtain ⟨me', hput, hwf, hsz, hb, ht, hm, _⟩ := try_put_step me v h hf
  exact ⟨me', hput, hwf, holds_insert me me' v l h hf hl hsz hb ht hm, hm⟩

theorem holds_get (me : ring_buf_t w α) (d x : α) (l : List α) (h : wf me)
    (hl : holds me (x :: l)) :
    ∃ me', ring_buf_get me d = some (0, me', x) ∧ wf me' ∧ holds me' l ∧ me'.max = me.max ∧
      me' = { me with tail := advance_headtail_value w me.tail me.max, full := false } := by
  obtain ⟨hx, hne⟩ := holds_head me x l h hl
  obtain ⟨y, me', hy, hget, hwf, hsz, hme⟩ := get_step me d h hne
  have hxy : y = x := by
    rw [hx] at hy
    exact (Option.some.inj hy).symm
  subst hxy
  subst hme
  exact ⟨_, hget, hwf, holds_remove me _ y l h hl hsz rfl rfl rfl, rfl, rfl⟩

/-- On a full buffer the overwriting insertion ends in the state reached by a
removal followed by a rejecting insertion: the oldest element is the one lost. -/
theorem put_full_eq_get_try_put (me : ring_buf_t w α) (v : α) (hf : me.full = true)
    (hin : me.head < me.buffer.length) :
    ring_buf_try_put
        ({ me with tail := advance_headtail_value w me.tail me.max, full := false }) v
      = (ring_buf_put me v).map (fun me' => ((0 : Int), me')) := by
  rw [put_full me v hf hin,
    try_put_not_full
      ({ me with tail := advance_headtail_value w me.tail me.max, full := false }) v rfl hin]
  rfl

theorem holds_put_not_full (me : ring_buf_t w α) (v : α) (l : List α) (h : wf me)
    (hf : me.full = false) (hl : holds me l) :
    ∃ me', ring_buf_put me v = some me' ∧ wf me' ∧ holds me' (l ++ [v]) ∧
      me'.max = me.max := by
  have h2 := h.head_lt
  have h4 := h.storage
  obtain ⟨me', hput, hwf, hl', hm⟩ := holds_try_put me v l h hf hl
  refine ⟨me', ?_, hwf, hl', hm⟩
  rw [try_put_not_full me v hf (by omega)] at hput
  rw [put_not_full me v hf (by omega)]
  exact congrArg (Option.map Prod.snd) hput

theorem holds_put_full (me : ring_buf_t w α) (v x : α) (l : List α) (h : wf me)
    (hf : me.full = true) (hl : holds me (x :: l)) :
    ∃ me', ring_buf_put me v = some me' ∧ wf me' ∧ holds me' (l ++ [v]) ∧
      me'.max = me.max ∧ me'.full = true := by
  have h2 := h.head_lt
  have h4 := h.storage
  obtain ⟨me1, _, hwf1, hl1, hm1, hme1⟩ := holds_get me v x l h hl
  have hf1 : me1.full = false := by rw [hme1]
  obtain ⟨me2, hput, hwf2, hl2, hm2⟩ := holds_try_put me1 v l hwf1 hf1 hl1
  rw [hme1, put_full_eq_get_try_put me v hf (by omega), put_full me v hf (by omega)] at hput
  refine ⟨me2, ?_, hwf2, hl2, by omega, ?_⟩
  · rw [put_full me v hf (by omega)]
    exact congrArg (Option.map Prod.snd) hput
  · rw [full_iff_size_capacity me2 hwf2, ← hl2.1, hm2, hm1,
      ← (full_iff_size_capacity me h).1 hf, ← hl.1]
    simp

/-! ## Sequences of calls -/

theorem try_put_all_holds (vs : List α) :
    ∀ (me : ring_buf_t w α) (l : List α), wf me → holds me l →
      l.length + vs.length ≤ me.max →
      ∃ me', try_put_all me vs = some (List.replicate vs.length 0, me') ∧ wf me' ∧
        holds me' (l ++ vs) ∧ me'.max = me.max := by
  induction vs with
  | nil =>
    intro me l h hl _
    exact ⟨me, rfl, h, by simpa using hl, rfl⟩
  | cons v vs ih =>
    intro me l h hl hlen
    simp only [List.length_cons] at hlen
    have hf : me.full = false := by
      cases hfull : me.full
      · rfl
      · have := (full_iff_size_capacity me h).1 hfull
        have := hl.1
        omega
    obtain ⟨me1, hput, hwf1, hl1, hm1⟩ := holds_try_put me v l h hf hl
    obtain ⟨me2, hall, hwf2, hl2, hm2⟩ := ih me1 (l ++ [v]) hwf1 hl1 (by
      simp only [List.length_append, List.length_singleton]
      omega)
    refine ⟨me2, ?_, hwf2, by simpa using hl2, by omega⟩
    simp [try_put_all, hput, hall, List.replicate_succ]

theorem get_n_holds (l1 : List α) :
    ∀ (me : ring_buf_t w α) (l2 : List α) (d : α), wf me → holds me (l1 ++ l2) →
      ∃ me', get_n me l1.length d = some (l1.map (fun v => ((0 : Int), v)), me') ∧ wf me' ∧
        holds me' l2 ∧ me'.max = me.max := by
  induction l1 with
  | nil =>
    intro me l2 d h hl
    exact ⟨me, rfl, h, by simpa using hl, rfl⟩
  | cons x l1 ih =>
    intro me l2 d h hl
    obtain ⟨me1, hget, hwf1, hl1, hm1⟩ := holds_get me d x (l1 ++ l2) h hl
    obtain ⟨me2, hall, hwf2, hl2, hm2⟩ := ih me1 l2 x hwf1 hl1
    refine ⟨me2, ?_, hwf2, hl2, by omega⟩
    simp [get_n, hget, hall]

theorem put_all_not_full (vs : List α) :
    ∀ (me : ring_buf_t w α) (l : List α), wf me → holds me l →
      l.length + vs.length ≤ me.max →
      ∃ me', put_all me vs = some me' ∧ wf me' ∧ holds me' (l ++ vs) ∧ me'.max = me.max := by
  induction vs with
  | nil =>
    intro me l h hl _
    exact ⟨me, rfl, h, by simpa using hl, rfl⟩
  | cons v vs ih =>
    intro me l h hl hlen
    simp only [List.length_cons] at hlen
    have hf : me.full = false := by
      cases hfull : me.full
      · rfl
      · have := (full_iff_size_capacity me h).1 hfull
        have := hl.1
        omega
    obtain ⟨me1, hput, hwf1, hl1, hm1⟩ := holds_put_not_full me v l h hf hl
    obtain ⟨me2, hall, hwf2, hl2, hm2⟩ := ih me1 (l ++ [v]) hwf1 hl1 (by
      simp only [List.length_append, List.length_singleton]
      omega)
    refine ⟨me2, ?_, hwf2, by simpa using hl2, by omega⟩
    simp [put_all, hput, hall]

theorem put_all_append (vs us : List α) :
    ∀ (me : ring_buf_t w α),
      put_all me (vs ++ us) = (put_all me vs).bind (fun me1 => put_all me1 us) := by
  induction vs with
  | nil => intro me; rfl
  | cons v vs ih =>
    intro me
    simp only [List.cons_append, put_all]
    cases ring_buf_put me v with
    | none => rfl
    | some me1 => exact ih me1

/-! ## Construction -/

theorem constructed_fresh (me : ring_buf_t w α) (buffer : List α) (size : Nat)
    (hc : constructed me buffer size) :
    me.buffer = buffer ∧ me.max = size ∧ me.head = 0 ∧ me.tail = 0 ∧ me.full = false ∧
      size ≠ 0 := by
  rcases hc with ⟨raw, hraw⟩ | ⟨pool, pool1, idx, hst, hidx⟩
  · unfold ring_buf_dynamic_init at hraw
    split at hraw
    · exact absurd hraw (by simp)
    · next hsz =>
      cases raw with
      | none => exact absurd hraw (by simp)
      | some slot =>
        simp only [ring_buf_reset, ring_buf_empty, ring_buf_full, Bool.not_false, beq_self_eq_true,
          Bool.and_self, if_true, Option.some.injEq] at hraw
        subst hraw
        exact ⟨rfl, rfl, rfl, rfl, rfl, hsz⟩
  · unfold ring_buf_static_init at hst
    split at hst
    · exact absurd hst (by simp)
    · next hsz =>
      split at hst
      · cases hslot : pool.rbuf_array[pool.rbufs_number]? with
        | none =>
          rw [hslot] at hst
          exact absurd hst (by simp)
        | some slot =>
          rw [hslot] at hst
          simp only [ring_buf_reset, ring_buf_empty, ring_buf_full, Bool.not_false,
            beq_self_eq_true, Bool.and_self, if_true, Option.some.injEq, Prod.mk.injEq] at hst
          obtain ⟨hp, hi⟩ := hst
          subst hp
          subst hi
          have hlt : pool.rbufs_number < pool.rbuf_array.length := by
            by_contra hge
            rw [List.getElem?_eq_none (by omega)] at hslot
            exact absurd hslot (by simp)
          rw [List.getElem?_set_self hlt] at hidx
          have := Option.some.inj hidx
          subst this
          exact ⟨rfl, rfl, rfl, rfl, rfl, hsz⟩
      · simp only [Option.some.injEq, Prod.mk.injEq] at hst
        exact absurd hst.2 (by simp)

/-- A freshly constructed buffer over large enough storage is well formed and empty. -/
theorem constructed_wf (me : ring_buf_t w α) (buffer : List α) (size : Nat)
    (hc : constructed me buffer size) (hrep : size < 2 ^ w) (hst : size ≤ buffer.length) :
    wf me ∧ ring_buf_empty me = true := by
  obtain ⟨hb, hm, hh, ht, hf, hsz⟩ := constructed_fresh me buffer size hc
  refine ⟨⟨by omega, by omega, by rw [hb, hm]; exact hst, by omega, by omega, ?_⟩, ?_⟩
  · intro _
    omega
  · simp [ring_buf_empty, ring_buf_full, hf, hh, ht]

/-! ## The look-ahead loop -/

theorem take_succ_set (data : List α) (i : Nat) (x : α) (hi : i < data.length) :
    (data.set i x).take (i + 1) = data.take i ++ [x] := by
  apply List.ext_getElem?
  intro j
  rw [List.getElem?_take, List.getElem?_append, List.getElem?_take, List.getElem?_set]
  simp only [List.length_take]
  have hmin : min i data.length = i := by omega
  rw [hmin]
  by_cases h1 : j < i
  · simp [h1, Nat.lt_succ_of_lt h1, Nat.ne_of_gt h1]
  · by_cases h2 : j = i
    · subst h2
      simp [hi]
    · have h3 : ¬ j < i + 1 := by omega
      simp [h1, h3]
      omega

/-- The loop reads the control structure only through `buffer` and `max`. -/
theorem peek_loop_congr (me me' : ring_buf_t w α) (hb : me'.buffer = me.buffer)
    (hm : me'.max = me.max) (n : Nat) :
    ∀ (i pos : Nat) (data : List α),
      ring_buf_peek_loop me' n i pos data = ring_buf_peek_loop me n i pos data := by
  induction n with
  | zero => intro i pos data; rfl
  | succ n ih =>
    intro i pos data
    simp only [ring_buf_peek_loop, hb, hm]
    cases me.buffer[pos]? with
    | none => rfl
    | some x =>
      simp only
      split
      · exact ih _ _ _
      · rfl

/-- A look-ahead loop of `k` iterations started at the tail writes, at output
indices `i .. i+k-1`, the values the next `k` removals deliver. -/
theorem peek_loop_get (k : Nat) :
    ∀ (me : ring_buf_t w α) (i : Nat) (data out : List α) (d : α), wf me →
      k ≤ ring_buf_size me → ring_buf_peek_loop me k i me.tail data = some out →
      ∃ vals me', vals.length = k ∧ out = data.take i ++ vals ++ data.drop (i + k) ∧
        get_n me k d = some (vals.map (fun v => ((0 : Int), v)), me') := by
  induction k with
  | zero =>
    intro me i data out d _ _ hloop
    simp only [ring_buf_peek_loop, Option.some.injEq] at hloop
    exact ⟨[], me, rfl, by simp [← hloop], rfl⟩
  | succ k ih =>
    intro me i data out d h hk hloop
    have hne : ring_buf_empty me = false := by
      cases he : ring_buf_empty me
      · rfl
      · have := (empty_iff_size_zero me h).1 he
        omega
    obtain ⟨x, me1, hx, hget, hwf1, hsz1, hme1⟩ := get_step me d h hne
    simp only [ring_buf_peek_loop, hx] at hloop
    split at hloop
    · next hi =>
      have hb1 : me1.buffer = me.buffer := by rw [hme1]
      have hm1 : me1.max = me.max := by rw [hme1]
      have ht1 : me1.tail = advance_headtail_value w me.tail me.max := by rw [hme1]
      rw [← ht1, ← peek_loop_congr me me1 hb1 hm1] at hloop
      obtain ⟨vals, me2, hlen, hout, hgets⟩ :=
        ih me1 (i + 1) (data.set i x) out x hwf1 (by omega) hloop
      refine ⟨x :: vals, me2, by simp [hlen], ?_, ?_⟩
      · rw [hout, take_succ_set data i x hi, List.drop_set_of_lt x data (by omega)]
        have : i + 1 + k = i + (k + 1) := by omega
        rw [this]
        simp
      · simp [get_n, hget, hgets]
    · exact absurd hloop (by simp)

/-- The loop is defined whenever it starts inside the storage and the output
array has room for the remaining iterations. -/
theorem peek_loop_defined (me : ring_buf_t w α) (hst : me.max ≤ me.buffer.length) (k : Nat) :
    ∀ (i pos : Nat) (data : List α), pos < me.max → i + k ≤ data.length →
      ∃ out, ring_buf_peek_loop me k i pos data = some out ∧ out.length = data.length := by
  induction k with
  | zero =>
    intro i pos data _ _
    exact ⟨data, rfl, rfl⟩
  | succ k ih =>
    intro i pos data hpos hlen
    have hlt : pos < me.buffer.length := by omega
    have hi : i < data.length := by omega
    obtain ⟨out, hout, hol⟩ := ih (i + 1) (advance_headtail_value w pos me.max)
      (data.set i me.buffer[pos]) (advance_lt w pos me.max hpos) (by
        rw [List.length_set]
        omega)
    refine ⟨out, ?_, by rw [hol, List.length_set]⟩
    simp only [ring_buf_peek_loop, List.getElem?_eq_getElem hlt, hi, if_true]
    exact hout

/-! ## Counting insertions and removals -/

theorem run_calls_size (cs : List (call α)) :
    ∀ (me : ring_buf_t w α), wf me →
      ∃ me' puts gets, run_calls me cs = some (me', puts, gets) ∧ wf me' ∧
        ring_buf_size me' + gets = ring_buf_size me + puts ∧ me'.max = me.max := by
  induction cs with
  | nil =>
    intro me h
    exact ⟨me, 0, 0, rfl, h, rfl, rfl⟩
  | cons c cs ih =>
    intro me h
    cases c with
    | try_put v =>
      cases hf : me.full
      · obtain ⟨me1, hput, hwf1, hsz1, _, _, hm1, _⟩ := try_put_step me v h hf
        obtain ⟨me2, puts, gets, hrun, hwf2, hsz2, hm2⟩ := ih me1 hwf1
        refine ⟨me2, puts + 1, gets, ?_, hwf2, by omega, by omega⟩
        simp [run_calls, hput, hrun]
      · obtain ⟨me2, puts, gets, hrun, hwf2, hsz2, hm2⟩ := ih me h
        refine ⟨me2, puts, gets, ?_, hwf2, hsz2, hm2⟩
        have hput : ring_buf_try_put me v = some (-1, me) := by
          simp [ring_buf_try_put, ring_buf_full, hf]
        simp [run_calls, hput, hrun]
    | get d =>
      cases he : ring_buf_empty me
      · obtain ⟨x, me1, _, hget, hwf1, hsz1, hme1⟩ := get_step me d h he
        obtain ⟨me2, puts, gets, hrun, hwf2, hsz2, hm2⟩ := ih me1 hwf1
        have hm1 : me1.max = me.max := by rw [hme1]
        refine ⟨me2, puts, gets + 1, ?_, hwf2, by omega, by omega⟩
        simp [run_calls, hget, hrun]
      · obtain ⟨me2, puts, gets, hrun, hwf2, hsz2, hm2⟩ := ih me h
        refine ⟨me2, puts, gets, ?_, hwf2, hsz2, hm2⟩
        have hget : ring_buf_get me d = some (-1, me, d) := by
          simp [ring_buf_get, he]
        simp [run_calls, hget, hrun]

/-! ## Invariants of single operations and of runs -/

theorem advance_head_pointer_range (me : ring_buf_t w α) (h : index_range me) :
    index_range (advance_head_pointer me) ∧ (advance_head_pointer me).max = me.max := by
  obtain ⟨hh, ht⟩ := h
  unfold advance_head_pointer ring_buf_full index_range
  cases hf : me.full
  · exact ⟨⟨advance_lt w _ _ hh, ht⟩, rfl⟩
  · exact ⟨⟨advance_lt w _ _ hh, advance_lt w _ _ ht⟩, rfl⟩

theorem apply_op_range (me me' : ring_buf_t w α) (o : op α) (h : index_range me)
    (hres : apply_op me o = some me') : index_range me' ∧ me'.max = me.max := by
  cases o with
  | put v =>
    simp only [apply_op, ring_buf_put] at hres
    split at hres
    · simp only [Option.some.injEq] at hres
      rw [← hres]
      exact advance_head_pointer_range _ h
    · exact absurd hres (by simp)
  | try_put v =>
    simp only [apply_op, ring_buf_try_put] at hres
    split at hres
    · split at hres
      · simp only [Option.map_some', Option.some.injEq] at hres
        rw [← hres]
        exact advance_head_pointer_range _ h
      · exact absurd hres (by simp)
    · simp only [Option.map_some', Option.some.injEq] at hres
      rw [← hres]
      exact ⟨h, rfl⟩
  | get d =>
    simp only [apply_op, ring_buf_get] at hres
    split at hres
    · cases hx : me.buffer[me.tail]? with
      | none =>
        rw [hx] at hres
        exact absurd hres (by simp)
      | some x =>
        rw [hx] at hres
        simp only [Option.map_some', Option.some.injEq] at hres
        rw [← hres]
        exact ⟨⟨h.1, advance_lt w _ _ h.2⟩, rfl⟩
    · simp only [Option.map_some', Option.some.injEq] at hres
      rw [← hres]
      exact ⟨h, rfl⟩
  | peek data n =>
    simp only [apply_op, ring_buf_peek] at hres
    split at hres
    · simp only [Option.map_some', Option.some.injEq] at hres
      rw [← hres]
      exact ⟨h, rfl⟩
    · cases hl : ring_buf_peek_loop me n 0 me.tail data with
      | none =>
        rw [hl] at hres
        exact absurd hres (by simp)
      | some res =>
        rw [hl] at hres
        simp only [Option.map_some', Option.some.injEq] at hres
        rw [← hres]
        exact ⟨h, rfl⟩
  | reset =>
    simp only [apply_op, Option.some.injEq] at hres
    rw [← hres]
    have : 0 < me.max := Nat.lt_of_le_of_lt (Nat.zero_le _) h.1
    exact ⟨⟨this, this⟩, rfl⟩

theorem run_ops_range (os : List (op α)) :
    ∀ (me me' : ring_buf_t w α), index_range me → run_ops me os = some me' →
      index_range me' ∧ me'.max = me.max := by
  induction os with
  | nil =>
    intro me me' h hres
    simp only [run_ops, Option.some.injEq] at hres
    rw [← hres]
    exact ⟨h, rfl⟩
  | cons o os ih =>
    intro me me' h hres
    simp only [run_ops] at hres
    cases h1 : apply_op me o with
    | none =>
      rw [h1] at hres
      exact absurd hres (by simp)
    | some me1 =>
      rw [h1] at hres
      obtain ⟨hr1, hm1⟩ := apply_op_range me me1 o h h1
      obtain ⟨hr2, hm2⟩ := ih me1 me' hr1 hres
      exact ⟨hr2, by omega⟩

theorem wf_put (me : ring_buf_t w α) (v : α) (h : wf me) :
    ∃ me', ring_buf_put me v = some me' ∧ wf me' ∧ me'.max = me.max := by
  have h2 := h.head_lt
  have h4 := h.storage
  cases hf : me.full
  · obtain ⟨me', hput, hwf, _, _, _, hm, _⟩ := try_put_step me v h hf
    refine ⟨me', ?_, hwf, hm⟩
    rw [try_put_not_full me v hf (by omega)] at hput
    rw [put_not_full me v hf (by omega)]
    exact congrArg (Option.map Prod.snd) hput
  · refine ⟨_, put_full me v hf (by omega), ?_, rfl⟩
    exact ⟨h.cap_pos, h.cap_rep, by simpa using h4, advance_lt w _ _ h2,
      advance_lt w _ _ h.tail_lt, by simp⟩

theorem wf_reset (me : ring_buf_t w α) (h : wf me) : wf (ring_buf_reset me) :=
  ⟨h.cap_pos, h.cap_rep, h.storage, h.cap_pos, h.cap_pos, fun _ => rfl⟩

/-- Every operation is defined on a well-formed state (for a look-ahead, when
the output array has room for the count) and ends in a well-formed state. -/
theorem apply_op_wf (me : ring_buf_t w α) (o : op α) (h : wf me)
    (hroom : ∀ data n, o = op.peek data n → n ≤ data.length) :
    ∃ me', apply_op me o = some me' ∧ wf me' ∧ me'.max = me.max := by
  cases o with
  | put v => exact wf_put me v h
  | try_put v =>
    cases hf : me.full
    · obtain ⟨me', hput, hwf, _, _, _, hm, _⟩ := try_put_step me v h hf
      exact ⟨me', by simp [apply_op, hput], hwf, hm⟩
    · exact ⟨me, by simp [apply_op, ring_buf_try_put, ring_buf_full, hf], h, rfl⟩
  | get d =>
    cases he : ring_buf_empty me
    · obtain ⟨x, me', _, hget, hwf, _, hme⟩ := get_step me d h he
      exact ⟨me', by simp [apply_op, hget], hwf, by rw [hme]⟩
    · exact ⟨me, by simp [apply_op, ring_buf_get, he], h, rfl⟩
  | peek data n =>
    have hn := hroom data n rfl
    refine ⟨me, ?_, h, rfl⟩
    obtain ⟨out, hout, _⟩ :=
      peek_loop_defined me h.storage n 0 me.tail data h.tail_lt (by omega)
    simp only [apply_op, ring_buf_peek, hout]
    split <;> rfl
  | reset => exact ⟨_, rfl, wf_reset me h, rfl⟩

theorem run_ops_wf (os : List (op α)) :
    ∀ (me : ring_buf_t w α), wf me →
      (∀ data n, op.peek data n ∈ os → n ≤ data.length) →
      ∃ me', run_ops me os = some me' ∧ wf me' ∧ me'.max = me.max := by
  induction os with
  | nil =>
    intro me h _
    exact ⟨me, rfl, h, rfl⟩
  | cons o os ih =>
    intro me h hroom
    obtain ⟨me1, h1, hwf1, hm1⟩ := apply_op_wf me o h (by
      intro data n ho
      exact hroom data n (by simp [ho]))
    obtain ⟨me2, h2, hwf2, hm2⟩ := ih me1 hwf1 (by
      intro data n hmem
      exact hroom data n (List.mem_cons_of_mem _ hmem))
    exact ⟨me2, by simp [run_ops, h1, h2], hwf2, by omega⟩

/-! ## Verified claims -/

/-- C1. FIFO round trip: on an empty well-formed buffer, `k ≤ capacity`
successive `ring_buf_try_put` calls all return `0`; the following `k`
`ring_buf_get` calls all return `0` and deliver the inserted values in insertion
order; afterwards the buffer is empty again. -/
theorem C1_fifo_round_trip (me : ring_buf_t w α) (vs : List α) (d : α) (h : wf me)
    (he : me.head = me.tail) (hf : me.full = false)
    (hk : vs.length ≤ ring_buf_capacity me) :
    ∃ me1 me2, try_put_all me vs = some (List.replicate vs.length 0, me1) ∧
      get_n me1 vs.length d = some (vs.map (fun v => ((0 : Int), v)), me2) ∧
      ring_buf_empty me2 = true := by
  have hempty : ring_buf_empty me = true := by
    simp [ring_buf_empty, ring_buf_full, hf, he]
  obtain ⟨me1, hput, hwf1, hl1, _⟩ :=
    try_put_all_holds vs me [] h (holds_nil me h hempty) (by simpa using hk)
  obtain ⟨me2, hget, hwf2, hl2, _⟩ := get_n_holds vs me1 [] d hwf1 (by simpa using hl1)
  refine ⟨me1, me2, hput, hget, ?_⟩
  exact (empty_iff_size_zero me2 hwf2).2 hl2.1.symm

/-- Witness for C1: three values through a capacity-3 buffer whose indices
start in the middle of the storage, so that they wrap. -/
theorem C1_fifo_round_trip_witness :
    ∃ me1 me2,
      try_put_all (⟨[0, 0, 0], 2, 2, 3, false⟩ : ring_buf_t 8 Nat) [7, 8, 9]
        = some (List.replicate [7, 8, 9].length 0, me1) ∧
      get_n me1 [7, 8, 9].length 0 = some ([7, 8, 9].map (fun v => ((0 : Int), v)), me2) ∧
      ring_buf_empty me2 = true :=
  C1_fifo_round_trip ⟨[0, 0, 0], 2, 2, 3, false⟩ [7, 8, 9] 0
    ⟨by decide, by decide, by decide, by decide, by decide, by decide⟩
    (by decide) (by decide) (by decide)

/-- C2. Overwrite law: `C + 1` calls of `ring_buf_put` on a freshly constructed
buffer of capacity `C` (the constructor guarantees `C ≥ 1`) leave it full with
`ring_buf_size = C`; the next `ring_buf_get` succeeds and returns the second
value, and the `C` gets after the puts return exactly the values 2 .. C+1 in
order: only the first value was evicted. -/
theorem C2_overwrite_law (me : ring_buf_t w α) (buffer : List α) (C : Nat) (vs : List α)
    (d : α) (hc : constructed me buffer C) (hrep : C < 2 ^ w) (hst : C ≤ buffer.length)
    (hvs : vs.length = C + 1) :
    1 ≤ C ∧ ∃ me1 me2 me3 v2, put_all me vs = some me1 ∧ ring_buf_full me1 = true ∧
      ring_buf_size me1 = C ∧ ring_buf_capacity me1 = C ∧
      vs[1]? = some v2 ∧ ring_buf_get me1 d = some (0, me2, v2) ∧
      get_n me1 C d = some (vs.tail.map (fun v => ((0 : Int), v)), me3) := by
  obtain ⟨hb, hm, hh, ht, hf, hsz⟩ := constructed_fresh me buffer C hc
  obtain ⟨hwf, hempty⟩ := constructed_wf me buffer C hc hrep hst
  rcases List.eq_nil_or_concat vs with hnil | ⟨front, last, hfront⟩
  · rw [hnil] at hvs
    simp at hvs
  rw [List.concat_eq_append] at hfront
  subst hfront
  simp only [List.length_append, List.length_singleton, Nat.add_right_cancel_iff] at hvs
  cases front with
  | nil =>
    simp only [List.length_nil] at hvs
    omega
  | cons x rest =>
    obtain ⟨me0, hput0, hwf0, hl0, hm0⟩ :=
      put_all_not_full (x :: rest) me [] hwf (holds_nil me hwf hempty) (by
        simp only [List.length_nil, Nat.zero_add]
        omega)
    simp only [List.nil_append] at hl0
    have hf0 : me0.full = true := by
      rw [full_iff_size_capacity me0 hwf0, ← hl0.1]
      omega
    obtain ⟨me1, hput1, hwf1, hl1, hm1, hf1⟩ := holds_put_full me0 last x rest hwf0 hf0 hl0
    have hlen1 : (rest ++ [last]).length = C := by
      simp only [List.length_cons] at hvs
      simp only [List.length_append, List.length_singleton]
      exact hvs
    obtain ⟨me3, hget3, _, _, _⟩ := get_n_holds (rest ++ [last]) me1 [] d hwf1 (by
      simpa using hl1)
    rw [hlen1] at hget3
    have hsecond : ∃ v2 tl, rest ++ [last] = v2 :: tl := by
      cases hrl : rest ++ [last] with
      | nil => simp at hrl
      | cons v2 tl => exact ⟨v2, tl, rfl⟩
    obtain ⟨v2, tl, hv2⟩ := hsecond
    obtain ⟨me2, hget2, _, _, _, _⟩ := holds_get me1 d v2 tl hwf1 (by rw [← hv2]; exact hl1)
    refine ⟨by omega, me1, me2, me3, v2, ?_, hf1, ?_, by unfold ring_buf_capacity; omega, ?_,
      hget2, ?_⟩
    · rw [put_all_append, hput0]
      simp [put_all, hput1]
    · rw [← hl1.1, hlen1]
    · simp only [List.cons_append, List.getElem?_cons_succ, hv2, List.getElem?_cons_zero]
    · simpa using hget3

/-- Witness for C2: four values put into a fresh capacity-3 buffer. -/
theorem C2_overwrite_law_witness :
    1 ≤ 3 ∧ ∃ me1 me2 me3 v2,
      put_all (⟨[0, 0, 0], 0, 0, 3, false⟩ : ring_buf_t 8 Nat) [5, 6, 7, 8] = some me1 ∧
      ring_buf_full me1 = true ∧ ring_buf_size me1 = 3 ∧ ring_buf_capacity me1 = 3 ∧
      [5, 6, 7, 8][1]? = some v2 ∧ ring_buf_get me1 0 = some (0, me2, v2) ∧
      get_n me1 3 0 = some ([5, 6, 7, 8].tail.map (fun v => ((0 : Int), v)), me3) :=
  C2_overwrite_law ⟨[0, 0, 0], 0, 0, 3, false⟩ [0, 0, 0] 3 [5, 6, 7, 8] 0
    (Or.inl ⟨some ⟨[], 9, 9, 9, true⟩, by decide⟩) (by decide) (by decide) (by decide)

/-- C3. Rejecting insertion is atomic: `ring_buf_try_put` returns `-1` exactly
when the `full` flag is set and `0` otherwise, and a call that returns `-1`
leaves the whole control structure and the storage as they were, hence
`ring_buf_size` too.  On a full buffer the call is defined for every state; on a
not full one it is defined as soon as the slot at `head` exists. -/
theorem C3_try_put_reject_atomic (me : ring_buf_t w α) (v : α) :
    (me.full = true → ring_buf_try_put me v = some (-1, me)) ∧
    (me.full = false → me.head < me.buffer.length →
      ∃ me', ring_buf_try_put me v = some (0, me')) ∧
    (∀ r me', ring_buf_try_put me v = some (r, me') →
      (r = -1 ↔ ring_buf_full me = true) ∧ (r = -1 ∨ r = 0) ∧
      (r = -1 → me' = me ∧ me'.head = me.head ∧ me'.tail = me.tail ∧ me'.full = me.full ∧
        ring_buf_capacity me' = ring_buf_capacity me ∧ me'.buffer = me.buffer ∧
        ring_buf_size me' = ring_buf_size me)) := by
  refine ⟨?_, ?_, ?_⟩
  · intro hf
    simp [ring_buf_try_put, ring_buf_full, hf]
  · intro hf hin
    exact ⟨_, try_put_not_full me v hf hin⟩
  · intro r me' hres
    unfold ring_buf_try_put ring_buf_full at hres
    unfold ring_buf_full
    cases hf : me.full
    · simp only [hf, Bool.not_false, if_true] at hres
      split at hres
      · simp only [Option.some.injEq, Prod.mk.injEq] at hres
        obtain ⟨hr, _⟩ := hres
        subst hr
        simp [hf]
      · exact absurd hres (by simp)
    · simp only [hf, Bool.not_true, Bool.false_eq_true, if_false, Option.some.injEq,
        Prod.mk.injEq] at hres
      obtain ⟨hr, hme⟩ := hres
      subst hr
      subst hme
      simp [hf]

/-- Witness for C3: a full capacity-2 buffer rejects, a not full one accepts. -/
theorem C3_try_put_reject_atomic_witness :
    ring_buf_try_put (⟨[4, 5], 1, 1, 2, true⟩ : ring_buf_t 8 Nat) 9
        = some (-1, ⟨[4, 5], 1, 1, 2, true⟩) ∧
      ∃ me', ring_buf_try_put (⟨[4, 5], 1, 0, 2, false⟩ : ring_buf_t 8 Nat) 9 = some (0, me') :=
  ⟨(C3_try_put_reject_atomic ⟨[4, 5], 1, 1, 2, true⟩ 9).1 (by decide),
   (C3_try_put_reject_atomic ⟨[4, 5], 1, 0, 2, false⟩ 9).2.1 (by decide) (by decide)⟩

/-- C4. On an empty buffer (`full = false`, `head = tail`) `ring_buf_get`
returns `-1` and `ring_buf_peek` returns `-1` for every look-ahead count, and
neither touches the control structure, the storage, or the caller's output. -/
theorem C4_empty_get_peek_fail (me : ring_buf_t w α) (d : α) (hf : me.full = false)
    (he : me.head = me.tail) :
    ring_buf_get me d = some (-1, me, d) ∧
      ∀ (data : List α) (n : Nat), ring_buf_peek me data n = some (-1, me, data) := by
  have hempty : ring_buf_empty me = true := by
    simp [ring_buf_empty, ring_buf_full, hf, he]
  refine ⟨?_, ?_⟩
  · simp [ring_buf_get, hempty]
  · intro data n
    simp [ring_buf_peek, hempty]

/-- Witness for C4: an empty capacity-3 buffer with stale data in its storage. -/
theorem C4_empty_get_peek_fail_witness :
    ring_buf_get (⟨[4, 5, 6], 1, 1, 3, false⟩ : ring_buf_t 8 Nat) 77
        = some (-1, ⟨[4, 5, 6], 1, 1, 3, false⟩, 77) ∧
      ∀ (data : List Nat) (n : Nat),
        ring_buf_peek (⟨[4, 5, 6], 1, 1, 3, false⟩ : ring_buf_t 8 Nat) data n
          = some (-1, ⟨[4, 5, 6], 1, 1, 3, false⟩, data) :=
  C4_empty_get_peek_fail ⟨[4, 5, 6], 1, 1, 3, false⟩ 77 (by decide) (by decide)

/-- C5. Peek is non-destructive: whenever `ring_buf_peek` with count `n` returns
`0` on a well-formed buffer, the control structure and storage are returned
unchanged, output indices `0 .. n-1` hold `n` values (the rest of the output
array is untouched), and the next `n` calls of `ring_buf_get` all return `0` and
deliver exactly those values in the same order. -/
theorem C5_peek_non_destructive (me me' : ring_buf_t w α) (data out : List α) (n : Nat)
    (d : α) (h : wf me) (hp : ring_buf_peek me data n = some (0, me', out)) :
    me' = me ∧ ∃ vals me2, vals.length = n ∧ out = vals ++ data.drop n ∧
      out.take n = vals ∧
      get_n me n d = some (vals.map (fun v => ((0 : Int), v)), me2) := by
  unfold ring_buf_peek at hp
  split at hp
  · simp at hp
  · next hcond =>
    simp only [Bool.or_eq_true, decide_eq_true_eq, not_or, Bool.not_eq_true, not_lt] at hcond
    cases hloop : ring_buf_peek_loop me n 0 me.tail data with
    | none =>
      rw [hloop] at hp
      exact absurd hp (by simp)
    | some res =>
      rw [hloop] at hp
      simp only [Option.some.injEq, Prod.mk.injEq, true_and] at hp
      obtain ⟨hme, hout⟩ := hp
      subst hme
      subst hout
      obtain ⟨vals, me2, hlen, hres, hgets⟩ := peek_loop_get n me 0 data res d h hcond.2 hloop
      refine ⟨rfl, vals, me2, hlen, by simpa using hres, ?_, hgets⟩
      rw [hres]
      simp [hlen]

/-- Witness for C5: a look-ahead of two on a wrapped capacity-3 buffer. -/
theorem C5_peek_non_destructive_witness :
    (⟨[5, 6, 7], 1, 2, 3, false⟩ : ring_buf_t 8 Nat) = ⟨[5, 6, 7], 1, 2, 3, false⟩ ∧
      ∃ vals me2, vals.length = 2 ∧ [7, 5, 0] = vals ++ [1, 2, 0].drop 2 ∧
        [7, 5, 0].take 2 = vals ∧
        get_n (⟨[5, 6, 7], 1, 2, 3, false⟩ : ring_buf_t 8 Nat) 2 9
          = some (vals.map (fun v => ((0 : Int), v)), me2) :=
  C5_peek_non_destructive ⟨[5, 6, 7], 1, 2, 3, false⟩ ⟨[5, 6, 7], 1, 2, 3, false⟩
    [1, 2, 0] [7, 5, 0] 2 9
    ⟨by decide, by decide, by decide, by decide, by decide, by decide⟩ (by decide)

/-- C6. Size counts elements: starting from an empty well-formed buffer, every
finite sequence of `ring_buf_try_put` and `ring_buf_get` calls runs to
completion, and afterwards `ring_buf_size` equals the number of try_put calls
that returned `0` minus the number of get calls that returned `0`, and does not
exceed `ring_buf_capacity`. -/
theorem C6_size_counts (me : ring_buf_t w α) (cs : List (call α)) (h : wf me)
    (he : me.head = me.tail) (hf : me.full = false) :
    ∃ me' puts gets, run_calls me cs = some (me', puts, gets) ∧
      gets ≤ puts ∧ ring_buf_size me' = puts - gets ∧
      ((ring_buf_size me' : Nat) : Int) = (puts : Int) - (gets : Int) ∧
      ring_buf_size me' ≤ ring_buf_capacity me' := by
  have hempty : ring_buf_empty me = true := by
    simp [ring_buf_empty, ring_buf_full, hf, he]
  have h0 := (empty_iff_size_zero me h).1 hempty
  obtain ⟨me', puts, gets, hrun, hwf', hsz, _⟩ := run_calls_size cs me h
  exact ⟨me', puts, gets, hrun, by omega, by omega, by omega, size_le_capacity me' hwf'⟩

/-- Witness for C6: on a capacity-2 buffer, a get on empty fails, two insertions
succeed, a third is rejected, one removal succeeds: size 1 = 2 - 1. -/
theorem C6_size_counts_witness :
    ∃ me' puts gets,
      run_calls (⟨[0, 0], 1, 1, 2, false⟩ : ring_buf_t 8 Nat)
          [call.get 0, call.try_put 3, call.try_put 4, call.try_put 5, call.get 0]
        = some (me', puts, gets) ∧
      gets ≤ puts ∧ ring_buf_size me' = puts - gets ∧
      ((ring_buf_size me' : Nat) : Int) = (puts : Int) - (gets : Int) ∧
      ring_buf_size me' ≤ ring_buf_capacity me' :=
  C6_size_counts ⟨[0, 0], 1, 1, 2, false⟩
    [call.get 0, call.try_put 3, call.try_put 4, call.try_put 5, call.get 0]
    ⟨by decide, by decide, by decide, by decide, by decide, by decide⟩ (by decide) (by decide)

/-- C7. `ring_buf_peek` returns `-1` exactly when the buffer is empty or the
look-ahead count exceeds `ring_buf_size`, and `0` in every other case.  The
failing case is defined for every state; the succeeding case is defined on
every well-formed state when the output array has room for the count.  In
particular a look-ahead of `0` fails on an empty buffer and succeeds on a
non-empty one. -/
theorem C7_peek_result (me : ring_buf_t w α) (data : List α) (n : Nat) :
    ((ring_buf_empty me = true ∨ n > ring_buf_size me) →
      ring_buf_peek me data n = some (-1, me, data)) ∧
    (¬ (ring_buf_empty me = true ∨ n > ring_buf_size me) → wf me → n ≤ data.length →
      ∃ out, ring_buf_peek me data n = some (0, me, out)) ∧
    (∀ r me' out, ring_buf_peek me data n = some (r, me', out) →
      (r = -1 ↔ (ring_buf_empty me = true ∨ n > ring_buf_size me)) ∧ (r = -1 ∨ r = 0)) ∧
    (ring_buf_empty me = true → ring_buf_peek me data 0 = some (-1, me, data)) ∧
    (ring_buf_empty me = false → ring_buf_peek me data 0 = some (0, me, data)) := by
  refine ⟨?_, ?_, ?_, ?_, ?_⟩
  · intro hc
    have : (ring_buf_empty me || decide (n > ring_buf_size me)) = true := by
      simpa using hc
    simp only [ring_buf_peek, this, if_true]
  · intro hc h hn
    have hcond : ¬ (ring_buf_empty me || decide (n > ring_buf_size me)) = true := by
      simpa using hc
    obtain ⟨out, hout, _⟩ :=
      peek_loop_defined me h.storage n 0 me.tail data h.tail_lt (by omega)
    exact ⟨out, by simp [ring_buf_peek, hcond, hout]⟩
  · intro r me' out hres
    unfold ring_buf_peek at hres
    split at hres
    · next hcond =>
      simp only [Option.some.injEq, Prod.mk.injEq] at hres
      have hc : ring_buf_empty me = true ∨ n > ring_buf_size me := by simpa using hcond
      rw [← hres.1]
      simp [hc]
    · next hcond =>
      have hc : ¬ (ring_buf_empty me = true ∨ n > ring_buf_size me) := by simpa using hcond
      cases hloop : ring_buf_peek_loop me n 0 me.tail data with
      | none =>
        rw [hloop] at hres
        exact absurd hres (by simp)
      | some res =>
        rw [hloop] at hres
        simp only [Option.some.injEq, Prod.mk.injEq] at hres
        rw [← hres.1]
        simp only [hc, iff_false, or_true, and_true]
        decide
  · intro he
    simp [ring_buf_peek, he]
  · intro he
    simp [ring_buf_peek, he, ring_buf_peek_loop]

/-- Witness for C7: on a capacity-3 buffer holding two values, a look-ahead of
three fails and a look-ahead of two succeeds. -/
theorem C7_peek_result_witness :
    ring_buf_peek (⟨[5, 6, 7], 1, 2, 3, false⟩ : ring_buf_t 8 Nat) [0, 0, 0] 3
        = some (-1, ⟨[5, 6, 7], 1, 2, 3, false⟩, [0, 0, 0]) ∧
      ∃ out, ring_buf_peek (⟨[5, 6, 7], 1, 2, 3, false⟩ : ring_buf_t 8 Nat) [0, 0, 0] 2
        = some (0, ⟨[5, 6, 7], 1, 2, 3, false⟩, out) :=
  ⟨(C7_peek_result ⟨[5, 6, 7], 1, 2, 3, false⟩ [0, 0, 0] 3).1 (by decide),
   (C7_peek_result ⟨[5, 6, 7], 1, 2, 3, false⟩ [0, 0, 0] 2).2.1 (by decide)
     ⟨by decide, by decide, by decide, by decide, by decide, by decide⟩ (by decide)⟩

/-- C8. Put on a full buffer: on a well-formed full buffer (`full = true`, hence
`head = tail < capacity`) `ring_buf_put` stores the value in `storage[old head]`
and changes no other slot, advances both `head` and `tail` to
`(old index + 1) mod capacity`, and leaves the buffer full with `ring_buf_size`
equal to the unchanged capacity; the element lost is the oldest one. -/
theorem C8_put_on_full (me : ring_buf_t w α) (v : α) (h : wf me) (hf : me.full = true) :
    me.head = me.tail ∧ ∃ me', ring_buf_put me v = some me' ∧
      me'.buffer = me.buffer.set me.head v ∧ me'.buffer[me.head]? = some v ∧
      me'.buffer.length = me.buffer.length ∧
      (∀ j, j ≠ me.head → me'.buffer[j]? = me.buffer[j]?) ∧
      me'.head = (me.head + 1) % me.max ∧ me'.tail = (me.tail + 1) % me.max ∧
      ring_buf_capacity me' = ring_buf_capacity me ∧ ring_buf_full me' = true ∧
      ring_buf_size me' = ring_buf_capacity me' ∧
      (∀ x l, holds me (x :: l) → holds me' (l ++ [v])) := by
  have h1 := h.cap_rep
  have h2 := h.head_lt
  have h3 := h.tail_lt
  have h4 := h.storage
  have hht := h.full_eq hf
  have hin : me.head < me.buffer.length := by omega
  refine ⟨hht, _, put_full me v hf hin, rfl, ?_, ?_, ?_, ?_, ?_, rfl, ?_, ?_, ?_⟩
  · exact List.getElem?_set_self hin
  · exact List.length_set _ _ _
  · intro j hj
    exact List.getElem?_set_ne (Ne.symm hj)
  · exact advance_eq_mod w me.head me.max h2 h1
  · exact advance_eq_mod w me.tail me.max h3 h1
  · simp [ring_buf_full, hht]
  · simp [ring_buf_size, ring_buf_full, ring_buf_capacity, hht]
  · intro x l hl
    obtain ⟨me2, hput2, _, hl2, _, _⟩ := holds_put_full me v x l h hf hl
    rw [put_full me v hf hin] at hput2
    rw [Option.some.inj hput2]
    exact hl2

/-- Witness for C8: a full capacity-3 buffer whose indices sit on the last slot. -/
theorem C8_put_on_full_witness :
    (2 : Nat) = 2 ∧ ∃ me', ring_buf_put (⟨[4, 5, 6], 2, 2, 3, true⟩ : ring_buf_t 8 Nat) 9
        = some me' ∧
      me'.buffer = [4, 5, 6].set 2 9 ∧ me'.buffer[2]? = some 9 ∧
      me'.buffer.length = [4, 5, 6].length ∧
      (∀ j, j ≠ 2 → me'.buffer[j]? = [4, 5, 6][j]?) ∧
      me'.head = (2 + 1) % 3 ∧ me'.tail = (2 + 1) % 3 ∧
      ring_buf_capacity me' = ring_buf_capacity (⟨[4, 5, 6], 2, 2, 3, true⟩ : ring_buf_t 8 Nat) ∧
      ring_buf_full me' = true ∧ ring_buf_size me' = ring_buf_capacity me' ∧
      (∀ x l, holds (⟨[4, 5, 6], 2, 2, 3, true⟩ : ring_buf_t 8 Nat) (x :: l) →
        holds me' (l ++ [9])) :=
  C8_put_on_full ⟨[4, 5, 6], 2, 2, 3, true⟩ 9
    ⟨by decide, by decide, by decide, by decide, by decide, by decide⟩ (by decide)

/-- C9. Successful get: on a well-formed non-empty buffer `ring_buf_get` returns
`0`, writes `storage[old tail]` to the output, sets `tail` to
`(old tail + 1) mod capacity`, sets `full` to false, and leaves `head`, the
capacity and the storage array unchanged. -/
theorem C9_get_success (me : ring_buf_t w α) (d : α) (h : wf me)
    (hne : ring_buf_empty me = false) :
    ∃ x me', me.buffer[me.tail]? = some x ∧ ring_buf_get me d = some (0, me', x) ∧
      me'.tail = (me.tail + 1) % me.max ∧ me'.full = false ∧ ring_buf_full me' = false ∧
      me'.head = me.head ∧ ring_buf_capacity me' = ring_buf_capacity me ∧
      me'.buffer = me.buffer := by
  obtain ⟨x, me', hx, hget, _, _, hme⟩ := get_step me d h hne
  subst hme
  exact ⟨x, _, hx, hget, advance_eq_mod w me.tail me.max h.tail_lt h.cap_rep, rfl, rfl, rfl,
    rfl, rfl⟩

/-- Witness for C9: removal from a full capacity-3 buffer with the tail on the
last slot, so that the tail wraps to `0`. -/
theorem C9_get_success_witness :
    ∃ x me', [4, 5, 6][2]? = some x ∧
      ring_buf_get (⟨[4, 5, 6], 2, 2, 3, true⟩ : ring_buf_t 8 Nat) 0 = some (0, me', x) ∧
      me'.tail = (2 + 1) % 3 ∧ me'.full = false ∧ ring_buf_full me' = false ∧
      me'.head = 2 ∧
      ring_buf_capacity me' = ring_buf_capacity (⟨[4, 5, 6], 2, 2, 3, true⟩ : ring_buf_t 8 Nat) ∧
      me'.buffer = [4, 5, 6] :=
  C9_get_success ⟨[4, 5, 6], 2, 2, 3, true⟩ 0
    ⟨by decide, by decide, by decide, by decide, by decide, by decide⟩ (by decide)

/-- C10. Index-range invariant: `head < capacity` and `tail < capacity` hold after
construction (which forces `capacity ≥ 1`) and after reset, are preserved by
each of `ring_buf_put`, `ring_buf_try_put`, `ring_buf_get`, `ring_buf_peek` and
`ring_buf_reset`, hence hold after every sequence of operations; no operation
changes the capacity.  Moreover, from a constructed buffer whose storage has
`capacity` slots every sequence of operations (look-aheads into output arrays
with room for the count) runs to completion. -/
theorem C10_index_range_invariant :
    (∀ (me : ring_buf_t w α) (buffer : List α) (size : Nat), constructed me buffer size →
      1 ≤ ring_buf_capacity me ∧ ring_buf_capacity me = size ∧ index_range me) ∧
    (∀ (me : ring_buf_t w α), 1 ≤ ring_buf_capacity me →
      index_range (ring_buf_reset me) ∧
        ring_buf_capacity (ring_buf_reset me) = ring_buf_capacity me) ∧
    (∀ (me me' : ring_buf_t w α) (o : op α), index_range me → apply_op me o = some me' →
      index_range me' ∧ ring_buf_capacity me' = ring_buf_capacity me) ∧
    (∀ (me me' : ring_buf_t w α) (os : List (op α)), index_range me →
      run_ops me os = some me' →
      index_range me' ∧ ring_buf_capacity me' = ring_buf_capacity me) ∧
    (∀ (me : ring_buf_t w α) (buffer : List α) (size : Nat) (os : List (op α)),
      constructed me buffer size → size < 2 ^ w → size ≤ buffer.length →
      (∀ data n, op.peek data n ∈ os → n ≤ data.length) →
      ∃ me', run_ops me os = some me' ∧ index_range me' ∧ ring_buf_capacity me' = size) := by
  refine ⟨?_, ?_, ?_, ?_, ?_⟩
  · intro me buffer size hc
    obtain ⟨_, hm, hh, ht, _, hsz⟩ := constructed_fresh me buffer size hc
    unfold ring_buf_capacity index_range
    omega
  · intro me hcap
    unfold ring_buf_capacity at hcap
    exact ⟨⟨hcap, hcap⟩, rfl⟩
  · intro me me' o h hres
    exact apply_op_range me me' o h hres
  · intro me me' os h hres
    exact run_ops_range os me me' h hres
  · intro me buffer size os hc hrep hst hroom
    obtain ⟨hwf, _⟩ := constructed_wf me buffer size hc hrep hst
    obtain ⟨_, hm, _⟩ := constructed_fresh me buffer size hc
    obtain ⟨me', hrun, hwf', hm'⟩ := run_ops_wf os me hwf hroom
    refine ⟨me', hrun, ⟨hwf'.head_lt, hwf'.tail_lt⟩, ?_⟩
    unfold ring_buf_capacity
    omega

/-- Witness for C10: a statically constructed capacity-2 buffer driven through
every kind of operation, with both indices wrapping. -/
theorem C10_index_range_invariant_witness :
    ∃ me', run_ops (⟨[0, 0], 0, 0, 2, false⟩ : ring_buf_t 8 Nat)
        [op.put 1, op.put 2, op.put 3, op.try_put 4, op.peek [0, 0] 2, op.get 0, op.get 0,
          op.get 0, op.try_put 5, op.reset, op.put 6] = some me' ∧
      index_range me' ∧ ring_buf_capacity me' = 2 :=
  (C10_index_range_invariant.2.2.2.2) ⟨[0, 0], 0, 0, 2, false⟩ [0, 0] 2
    [op.put 1, op.put 2, op.put 3, op.try_put 4, op.peek [0, 0] 2, op.get 0, op.get 0,
      op.get 0, op.try_put 5, op.reset, op.put 6]
    (Or.inr ⟨pool_init 8 Nat, _, 0, rfl, rfl⟩) (by decide) (by decide) (by
      intro data n hmem
      simp only [List.mem_cons, op.peek.injEq, List.mem_singleton, reduceCtorEq, false_or,
        or_false, List.not_mem_nil] at hmem
      obtain ⟨hd, hn⟩ := hmem
      subst hd
      subst hn
      decide)

/-! ## The full flag along runs -/

theorem size_eq_range (me : ring_buf_t w α) (h1 : me.max < 2 ^ w) (hr : index_range me) :
    ring_buf_size me =
      if me.full = true then me.max
      else if me.tail ≤ me.head then me.head - me.tail else me.max + me.head - me.tail := by
  obtain ⟨h2, h3⟩ := hr
  unfold ring_buf_size ring_buf_full
  cases hf : me.full
  · simp only [Bool.not_false, if_true, ge_iff_le]
    rw [size_t_sub_eq w me.head me.tail (by omega) (by omega),
      size_t_add_eq w me.max me.head (by omega) (by omega)]
    simp only [Bool.false_eq_true, if_false]
    split
    · rfl
    · split
      · rw [size_t_sub_eq w _ me.tail (by omega) (by omega)]
        split <;> omega
      · rw [size_t_sub_eq w _ me.tail (by omega) (by omega)]
        split <;> omega
  · simp

theorem full_iff_size_range (me : ring_buf_t w α) (h1 : me.max < 2 ^ w) (hr : index_range me) :
    ring_buf_full me = true ↔ ring_buf_size me = ring_buf_capacity me := by
  have h2 := hr.1
  have h3 := hr.2
  rw [size_eq_range me h1 hr]
  unfold ring_buf_full ring_buf_capacity
  cases hf : me.full
  · simp only [Bool.false_eq_true, if_false, false_iff]
    split <;> omega
  · simp

theorem advance_head_pointer_full_flag (me : ring_buf_t w α)
    (hf : (advance_head_pointer me).full = true) :
    (advance_head_pointer me).head = (advance_head_pointer me).tail := by
  unfold advance_head_pointer at hf ⊢
  simpa using hf

/-- Every operation leaves the `full` flag set only when `head == tail`. -/
theorem apply_op_full_flag (me me' : ring_buf_t w α) (o : op α)
    (h : me.full = true → me.head = me.tail) (hres : apply_op me o = some me') :
    me'.full = true → me'.head = me'.tail := by
  cases o with
  | put v =>
    simp only [apply_op, ring_buf_put] at hres
    split at hres
    · simp only [Option.some.injEq] at hres
      rw [← hres]
      exact advance_head_pointer_full_flag _
    · exact absurd hres (by simp)
  | try_put v =>
    simp only [apply_op, ring_buf_try_put] at hres
    split at hres
    · split at hres
      · simp only [Option.map_some', Option.some.injEq] at hres
        rw [← hres]
        exact advance_head_pointer_full_flag _
      · exact absurd hres (by simp)
    · simp only [Option.map_some', Option.some.injEq] at hres
      rw [← hres]
      exact h
  | get d =>
    simp only [apply_op, ring_buf_get] at hres
    split at hres
    · cases hx : me.buffer[me.tail]? with
      | none =>
        rw [hx] at hres
        exact absurd hres (by simp)
      | some x =>
        rw [hx] at hres
        simp only [Option.map_some', Option.some.injEq] at hres
        rw [← hres]
        intro hfull
        exact absurd hfull (by simp)
    · simp only [Option.map_some', Option.some.injEq] at hres
      rw [← hres]
      exact h
  | peek data n =>
    simp only [apply_op, ring_buf_peek] at hres
    split at hres
    · simp only [Option.map_some', Option.some.injEq] at hres
      rw [← hres]
      exact h
    · cases hl : ring_buf_peek_loop me n 0 me.tail data with
      | none =>
        rw [hl] at hres
        exact absurd hres (by simp)
      | some res =>
        rw [hl] at hres
        simp only [Option.map_some', Option.some.injEq] at hres
        rw [← hres]
        exact h
  | reset =>
    simp only [apply_op, Option.some.injEq] at hres
    rw [← hres]
    intro hfull
    exact absurd hfull (by simp [ring_buf_reset])

theorem run_ops_full_flag (os : List (op α)) :
    ∀ (me me' : ring_buf_t w α), (me.full = true → me.head = me.tail) →
      run_ops me os = some me' → me'.full = true → me'.head = me'.tail := by
  induction os with
  | nil =>
    intro me me' h hres
    simp only [run_ops, Option.some.injEq] at hres
    rw [← hres]
    exact h
  | cons o os ih =>
    intro me me' h hres
    simp only [run_ops] at hres
    cases h1 : apply_op me o with
    | none =>
      rw [h1] at hres
      exact absurd hres (by simp)
    | some me1 =>
      rw [h1] at hres
      exact ih me1 me' (apply_op_full_flag me me1 o h h1) hres

/-- C11. In every state reached from a constructed buffer by any sequence of put,
try_put, get, peek and reset calls, `head == tail` holds exactly when the buffer
is empty or full; in particular the `full` flag is never set while
`head != tail`. -/
theorem C11_head_eq_tail_iff_empty_or_full (me me' : ring_buf_t w α) (buffer : List α)
    (size : Nat) (os : List (op α)) (hc : constructed me buffer size)
    (hrun : run_ops me os = some me') :
    (me'.head = me'.tail ↔ (ring_buf_empty me' = true ∨ ring_buf_full me' = true)) ∧
      (ring_buf_full me' = true → me'.head = me'.tail) ∧
      ¬ (ring_buf_full me' = true ∧ me'.head ≠ me'.tail) := by
  obtain ⟨_, _, hh, ht, hf, _⟩ := constructed_fresh me buffer size hc
  have hflag : me'.full = true → me'.head = me'.tail :=
    run_ops_full_flag os me me' (by intro hfull; rw [hf] at hfull; exact absurd hfull (by simp))
      hrun
  unfold ring_buf_empty ring_buf_full
  refine ⟨⟨?_, ?_⟩, hflag, ?_⟩
  · intro heq
    cases hfull : me'.full
    · left
      simp [heq]
    · right
      rfl
  · intro hor
    rcases hor with he | hfull
    · simp only [Bool.and_eq_true, Bool.not_eq_true', beq_iff_eq] at he
      exact he.2
    · exact hflag hfull
  · intro hboth
    exact hboth.2 (hflag hboth.1)

/-- Witness for C11: a dynamically constructed capacity-2 buffer after two puts
(full, `head = tail = 0`). -/
theorem C11_head_eq_tail_iff_empty_or_full_witness :
    ((⟨[1, 2], 0, 0, 2, true⟩ : ring_buf_t 8 Nat).head = (⟨[1, 2], 0, 0, 2, true⟩ : ring_buf_t 8 Nat).tail
      ↔ (ring_buf_empty (⟨[1, 2], 0, 0, 2, true⟩ : ring_buf_t 8 Nat) = true ∨
         ring_buf_full (⟨[1, 2], 0, 0, 2, true⟩ : ring_buf_t 8 Nat) = true)) ∧
      (ring_buf_full (⟨[1, 2], 0, 0, 2, true⟩ : ring_buf_t 8 Nat) = true →
        (⟨[1, 2], 0, 0, 2, true⟩ : ring_buf_t 8 Nat).head
          = (⟨[1, 2], 0, 0, 2, true⟩ : ring_buf_t 8 Nat).tail) ∧
      ¬ (ring_buf_full (⟨[1, 2], 0, 0, 2, true⟩ : ring_buf_t 8 Nat) = true ∧
        (⟨[1, 2], 0, 0, 2, true⟩ : ring_buf_t 8 Nat).head
          ≠ (⟨[1, 2], 0, 0, 2, true⟩ : ring_buf_t 8 Nat).tail) :=
  C11_head_eq_tail_iff_empty_or_full ⟨[0, 0], 0, 0, 2, false⟩ ⟨[1, 2], 0, 0, 2, true⟩ [0, 0] 2
    [op.put 1, op.put 2] (Or.inl ⟨some ⟨[], 7, 7, 7, true⟩, by decide⟩) (by decide)

/-- C12. In every state reached from a constructed buffer (whose capacity is a
`size_t` value) by any sequence of put, try_put, get, peek and reset calls,
`ring_buf_full` is true exactly when `ring_buf_size` equals
`ring_buf_capacity`. -/
theorem C12_full_iff_size_eq_capacity (me me' : ring_buf_t w α) (buffer : List α)
    (size : Nat) (os : List (op α)) (hc : constructed me buffer size) (hrep : size < 2 ^ w)
    (hrun : run_ops me os = some me') :
    (ring_buf_full me' = true ↔ ring_buf_size me' = ring_buf_capacity me') ∧
      ring_buf_capacity me' = size := by
  obtain ⟨_, hm, hh, ht, _, hsz⟩ := constructed_fresh me buffer size hc
  have hr : index_range me := ⟨by omega, by omega⟩
  obtain ⟨hr', hm'⟩ := run_ops_range os me me' hr hrun
  exact ⟨full_iff_size_range me' (by omega) hr', by unfold ring_buf_capacity; omega⟩

/-- Witness for C12: a capacity-3 buffer after four puts and one get (not full,
size 2), reached from a dynamically constructed buffer. -/
theorem C12_full_iff_size_eq_capacity_witness :
    (ring_buf_full (⟨[4, 2, 3], 1, 2, 3, false⟩ : ring_buf_t 8 Nat) = true ↔
        ring_buf_size (⟨[4, 2, 3], 1, 2, 3, false⟩ : ring_buf_t 8 Nat)
          = ring_buf_capacity (⟨[4, 2, 3], 1, 2, 3, false⟩ : ring_buf_t 8 Nat)) ∧
      ring_buf_capacity (⟨[4, 2, 3], 1, 2, 3, false⟩ : ring_buf_t 8 Nat) = 3 :=
  C12_full_iff_size_eq_capacity ⟨[0, 0, 0], 0, 0, 3, false⟩ ⟨[4, 2, 3], 1, 2, 3, false⟩
    [0, 0, 0] 3 [op.put 1, op.put 2, op.put 3, op.put 4, op.get 0]
    (Or.inl ⟨some ⟨[], 7, 7, 7, true⟩, by decide⟩) (by decide) (by decide)

/-! ## The contents function -/

theorem filterMap_range_spec (f : Nat → Option α) (n : Nat)
    (h : ∀ i, i < n → ∃ y, f i = some y) :
    ((List.range n).filterMap f).length = n ∧
      ∀ i, i < n → ((List.range n).filterMap f)[i]? = f i := by
  induction n with
  | zero =>
    refine ⟨rfl, ?_⟩
    intro i hi
    omega
  | succ n ih =>
    obtain ⟨hlen, hget⟩ := ih (fun i hi => h i (by omega))
    obtain ⟨y, hy⟩ := h n (by omega)
    have hstep : (List.range (n + 1)).filterMap f = (List.range n).filterMap f ++ [y] := by
      rw [List.range_succ, List.filterMap_append]
      simp [List.filterMap_cons, hy]
    rw [hstep]
    refine ⟨by simp [hlen], ?_⟩
    intro i hi
    by_cases hlt : i < n
    · rw [List.getElem?_append_left (by omega)]
      exact hget i hlt
    · have hin : i = n := by omega
      subst hin
      have := List.getElem?_concat_length ((List.range i).filterMap f) y
      rw [hlen] at this
      rw [this, hy]

theorem holds_contents (me : ring_buf_t w α) (h : wf me) : holds me (contents me) := by
  have h0 := h.cap_pos
  have h4 := h.storage
  have hsome : ∀ i, i < ring_buf_size me →
      ∃ y, me.buffer[(me.tail + i) % me.max]? = some y := by
    intro i _
    have hlt : (me.tail + i) % me.max < me.buffer.length :=
      Nat.lt_of_lt_of_le (Nat.mod_lt _ (by omega)) h4
    exact ⟨_, List.getElem?_eq_getElem hlt⟩
  obtain ⟨hlen, hget⟩ := filterMap_range_spec
    (fun i => me.buffer[(me.tail + i) % me.max]?) (ring_buf_size me) hsome
  refine ⟨hlen, ?_⟩
  intro i hi
  unfold contents at hi
  rw [hlen] at hi
  exact hget i hi

theorem holds_unique (me : ring_buf_t w α) (l1 l2 : List α) (h1 : holds me l1)
    (h2 : holds me l2) : l1 = l2 := by
  apply List.ext_getElem?
  intro i
  by_cases hi : i < l1.length
  · rw [h1.2 i hi, h2.2 i (by rw [h2.1, ← h1.1]; exact hi)]
  · rw [List.getElem?_eq_none (by omega), List.getElem?_eq_none (by rw [h2.1, ← h1.1]; omega)]

theorem contents_eq_of_holds (me : ring_buf_t w α) (l : List α) (h : wf me)
    (hl : holds me l) : contents me = l :=
  holds_unique me _ _ (holds_contents me h) hl

/-- A successful look-ahead delivers the first `n` elements of the queue and
leaves the rest of the output array as it was. -/
theorem holds_peek (me : ring_buf_t w α) (l data : List α) (n : Nat) (h : wf me)
    (hl : holds me l) (hne : ring_buf_empty me = false) (hn : n ≤ l.length)
    (hroom : n ≤ data.length) :
    ring_buf_peek me data n = some (0, me, l.take n ++ data.drop n) := by
  have hsz : n ≤ ring_buf_size me := by rw [← hl.1]; exact hn
  obtain ⟨out, hout, _⟩ :=
    peek_loop_defined me h.storage n 0 me.tail data h.tail_lt (by omega)
  have htl : me.tail < me.buffer.length := Nat.lt_of_lt_of_le h.tail_lt h.storage
  have d : α := me.buffer[me.tail]
  obtain ⟨vals, me2, hlen, hres, hgets⟩ := peek_loop_get n me 0 data out d h hsz hout
  have hsplit : holds me (l.take n ++ l.drop n) := by
    rw [List.take_append_drop]
    exact hl
  obtain ⟨me3, hgets3, _, _, _⟩ := get_n_holds (l.take n) me (l.drop n) d h hsplit
  have hlt : (l.take n).length = n := by
    rw [List.length_take]
    omega
  rw [hlt, hgets] at hgets3
  simp only [Option.some.injEq, Prod.mk.injEq] at hgets3
  have hinj : Function.Injective (fun v : α => ((0 : Int), v)) := by
    intro a b hab
    simp only [Prod.mk.injEq, true_and] at hab
    exact hab
  have hvals : vals = l.take n := List.map_injective_iff.2 hinj hgets3.1
  have hcond : ¬ (ring_buf_empty me || decide (n > ring_buf_size me)) = true := by
    simp only [hne, Bool.false_or, decide_eq_true_eq, not_lt]
    exact hsz
  simp only [ring_buf_peek, hcond, if_false, hout, hres, hvals]
  simp

/-! ## The capacity-4 scenario -/

/-- The scenario on a freshly constructed capacity-4 buffer, call by call:
three rejecting insertions, one removal, two overwriting insertions, with the
queue held after each phase. -/
theorem scenario_steps (me : ring_buf_t w α) (buffer : List α) (v1 v2 v3 v4 v5 d : α)
    (hc : constructed me buffer 4) (hrep : 4 < 2 ^ w) (hst : 4 ≤ buffer.length) :
    ∃ me1 me2 me3 me4 me5 me6,
      ring_buf_try_put me v1 = some (0, me1) ∧ ring_buf_try_put me1 v2 = some (0, me2) ∧
      ring_buf_try_put me2 v3 = some (0, me3) ∧ wf me3 ∧ holds me3 [v1, v2, v3] ∧
      ring_buf_get me3 d = some (0, me4, v1) ∧ wf me4 ∧ holds me4 [v2, v3] ∧
      ring_buf_put me4 v4 = some me5 ∧ ring_buf_put me5 v5 = some me6 ∧ wf me6 ∧
      holds me6 [v2, v3, v4, v5] ∧ me3.max = 4 ∧ me4.max = 4 ∧ me6.max = 4 := by
  obtain ⟨_, hm, _, _, _, _⟩ := constructed_fresh me buffer 4 hc
  obtain ⟨hwf, hempty⟩ := constructed_wf me buffer 4 hc hrep hst
  have hnf : ∀ (s : ring_buf_t w α) (l : List α), wf s → holds s l → s.max = 4 →
      l.length < 4 → s.full = false := by
    intro s l hs hl hmax hlen
    cases hfull : s.full
    · rfl
    · have := (full_iff_size_capacity s hs).1 hfull
      have := hl.1
      omega
  have hl0 := holds_nil me hwf hempty
  obtain ⟨me1, hp1, hwf1, hl1, hm1⟩ :=
    holds_try_put me v1 [] hwf (hnf me [] hwf hl0 hm (by simp)) hl0
  obtain ⟨me2, hp2, hwf2, hl2, hm2⟩ :=
    holds_try_put me1 v2 _ hwf1 (hnf me1 _ hwf1 hl1 (by omega) (by simp)) hl1
  obtain ⟨me3, hp3, hwf3, hl3, hm3⟩ :=
    holds_try_put me2 v3 _ hwf2 (hnf me2 _ hwf2 hl2 (by omega) (by simp)) hl2
  obtain ⟨me4, hg4, hwf4, hl4, hm4, _⟩ := holds_get me3 d v1 [v2, v3] hwf3 hl3
  obtain ⟨me5, hp5, hwf5, hl5, hm5⟩ :=
    holds_put_not_full me4 v4 _ hwf4 (hnf me4 _ hwf4 hl4 (by omega) (by simp)) hl4
  obtain ⟨me6, hp6, hwf6, hl6, hm6⟩ :=
    holds_put_not_full me5 v5 _ hwf5 (hnf me5 _ hwf5 hl5 (by omega) (by simp)) hl5
  exact ⟨me1, me2, me3, me4, me5, me6, hp1, hp2, hp3, hwf3, hl3, hg4, hwf4, hl4, hp5, hp6,
    hwf6, hl6, by omega, by omega, by omega⟩

/-- C13 (as amended). On a freshly constructed capacity-4 buffer, after try_put of
three values, one get, and put of two more values, the two puts trigger no
eviction: the buffer had room for two, it is now full and holds the second to
fifth values in order, so the next `ring_buf_get` returns the second value (for
the values 1.0 .. 5.0: it returns 2.0, then 3.0, 4.0, 5.0). -/
theorem C13_scenario_no_eviction (me : ring_buf_t w α) (buffer : List α)
    (v1 v2 v3 v4 v5 d : α) (hc : constructed me buffer 4) (hrep : 4 < 2 ^ w)
    (hst : 4 ≤ buffer.length) :
    ∃ me6 me7 me10,
      run_ops me [op.try_put v1, op.try_put v2, op.try_put v3, op.get d, op.put v4, op.put v5]
        = some me6 ∧
      ring_buf_full me6 = true ∧ ring_buf_size me6 = 4 ∧ contents me6 = [v2, v3, v4, v5] ∧
      ring_buf_get me6 d = some (0, me7, v2) ∧
      get_n me6 4 d = some ([(0, v2), (0, v3), (0, v4), (0, v5)], me10) := by
  obtain ⟨me1, me2, me3, me4, me5, me6, hp1, hp2, hp3, _, _, hg4, _, _, hp5, hp6, hwf6, hl6,
    _, _, hm6⟩ := scenario_steps me buffer v1 v2 v3 v4 v5 d hc hrep hst
  obtain ⟨me7, hg7, _, _, _, _⟩ := holds_get me6 d v2 [v3, v4, v5] hwf6 hl6
  obtain ⟨me10, hg10, _, _, _⟩ := get_n_holds [v2, v3, v4, v5] me6 [] d hwf6 (by simpa using hl6)
  have hsz : ring_buf_size me6 = 4 := by rw [← hl6.1]; rfl
  refine ⟨me6, me7, me10, ?_, ?_, hsz, contents_eq_of_holds me6 _ hwf6 hl6, hg7, ?_⟩
  · simp [run_ops, apply_op, hp1, hp2, hp3, hg4, hp5, hp6]
  · exact (full_iff_size_capacity me6 hwf6).2 (by omega)
  · simpa using hg10

/-- Witness for C13 (as amended): the scenario with the values 1 .. 5. -/
theorem C13_scenario_no_eviction_witness :
    ∃ me6 me7 me10,
      run_ops (⟨[0, 0, 0, 0], 0, 0, 4, false⟩ : ring_buf_t 32 ℚ)
        [op.try_put 1, op.try_put 2, op.try_put 3, op.get 0, op.put 4, op.put 5] = some me6 ∧
      ring_buf_full me6 = true ∧ ring_buf_size me6 = 4 ∧ contents me6 = [2, 3, 4, 5] ∧
      ring_buf_get me6 0 = some (0, me7, 2) ∧
      get_n me6 4 0 = some ([(0, 2), (0, 3), (0, 4), (0, 5)], me10) :=
  C13_scenario_no_eviction ⟨[0, 0, 0, 0], 0, 0, 4, false⟩ [0, 0, 0, 0] 1 2 3 4 5 0
    (Or.inl ⟨some ⟨[], 0, 0, 0, false⟩, by decide⟩) (by decide) (by decide)

/-- Counterexample to C13 as stated: with the values 1.0 .. 5.0 (as rationals) on
a fresh capacity-4 buffer, the state after the six calls still holds 2.0 in the
slot at `tail`, and the next `ring_buf_get` returns 2.0, not 3.0. -/
theorem C13_counterexample :
    run_ops (⟨[0, 0, 0, 0], 0, 0, 4, false⟩ : ring_buf_t 32 ℚ)
        [op.try_put 1, op.try_put 2, op.try_put 3, op.get 0, op.put 4, op.put 5]
      = some ⟨[5, 2, 3, 4], 1, 1, 4, true⟩ ∧
    ring_buf_get (⟨[5, 2, 3, 4], 1, 1, 4, true⟩ : ring_buf_t 32 ℚ) 0
      = some (0, ⟨[5, 2, 3, 4], 1, 2, 4, false⟩, 2) ∧
    ¬ ∃ me7, ring_buf_get (⟨[5, 2, 3, 4], 1, 1, 4, true⟩ : ring_buf_t 32 ℚ) 0
      = some (0, me7, 3) := by
  have hget : ring_buf_get (⟨[5, 2, 3, 4], 1, 1, 4, true⟩ : ring_buf_t 32 ℚ) 0
      = some (0, ⟨[5, 2, 3, 4], 1, 2, 4, false⟩, 2) := by decide
  refine ⟨by decide, hget, ?_⟩
  rintro ⟨me7, h⟩
  rw [hget] at h
  simp only [Option.some.injEq, Prod.mk.injEq, true_and] at h
  exact absurd h.2 (by decide)

/-- C14. Concrete scenario, trace: on a freshly constructed capacity-4 buffer the
three `ring_buf_try_put` calls return `0` and give `ring_buf_size = 3`,
`ring_buf_full = false`; `ring_buf_peek` with count 2 returns `0` and outputs
the first two values; `ring_buf_get` returns `0` with the first value and then
`ring_buf_size = 2`; after two `ring_buf_put` calls `ring_buf_full` is true. -/
theorem C14_scenario_trace (me : ring_buf_t w α) (buffer data : List α)
    (v1 v2 v3 v4 v5 d : α) (hc : constructed me buffer 4) (hrep : 4 < 2 ^ w)
    (hst : 4 ≤ buffer.length) (hroom : 2 ≤ data.length) :
    ∃ me3 me4 me6,
      try_put_all me [v1, v2, v3] = some ([0, 0, 0], me3) ∧
      ring_buf_size me3 = 3 ∧ ring_buf_full me3 = false ∧
      ring_buf_peek me3 data 2 = some (0, me3, v1 :: v2 :: data.drop 2) ∧
      ring_buf_get me3 d = some (0, me4, v1) ∧ ring_buf_size me4 = 2 ∧
      put_all me4 [v4, v5] = some me6 ∧ ring_buf_full me6 = true := by
  obtain ⟨me1, me2, me3, me4, me5, me6, hp1, hp2, hp3, hwf3, hl3, hg4, hwf4, hl4, hp5, hp6,
    hwf6, hl6, hm3, _, hm6⟩ := scenario_steps me buffer v1 v2 v3 v4 v5 d hc hrep hst
  have hsz3 : ring_buf_size me3 = 3 := by rw [← hl3.1]; rfl
  have hsz4 : ring_buf_size me4 = 2 := by rw [← hl4.1]; rfl
  have hsz6 : ring_buf_size me6 = 4 := by rw [← hl6.1]; rfl
  have hf3 : me3.full = false := by
    cases hfull : me3.full
    · rfl
    · have := (full_iff_size_capacity me3 hwf3).1 hfull
      omega
  have hne3 : ring_buf_empty me3 = false := by
    cases he : ring_buf_empty me3
    · rfl
    · have := (empty_iff_size_zero me3 hwf3).1 he
      omega
  have hpeek := holds_peek me3 [v1, v2, v3] data 2 hwf3 hl3 hne3 (by simp) hroom
  refine ⟨me3, me4, me6, ?_, hsz3, hf3, by simpa using hpeek, hg4, hsz4, ?_, ?_⟩
  · simp [try_put_all, hp1, hp2, hp3]
  · simp [put_all, hp5, hp6]
  · exact (full_iff_size_capacity me6 hwf6).2 (by omega)

/-- Witness for C14: the scenario with the values 1 .. 5 and a two-slot output
array. -/
theorem C14_scenario_trace_witness :
    ∃ me3 me4 me6,
      try_put_all (⟨[0, 0, 0, 0], 0, 0, 4, false⟩ : ring_buf_t 32 ℚ) [1, 2, 3]
        = some ([0, 0, 0], me3) ∧
      ring_buf_size me3 = 3 ∧ ring_buf_full me3 = false ∧
      ring_buf_peek me3 [9, 9] 2 = some (0, me3, 1 :: 2 :: [9, 9].drop 2) ∧
      ring_buf_get me3 0 = some (0, me4, 1) ∧ ring_buf_size me4 = 2 ∧
      put_all me4 [4, 5] = some me6 ∧ ring_buf_full me6 = true :=
  C14_scenario_trace ⟨[0, 0, 0, 0], 0, 0, 4, false⟩ [0, 0, 0, 0] [9, 9] 1 2 3 4 5 0
    (Or.inl ⟨some ⟨[], 0, 0, 0, false⟩, by decide⟩) (by decide) (by decide) (by decide)

/-! ## The static pool -/

/-- A call of `ring_buf_static_init` on a pool with a free slot claims the next
slot and touches no other slot. -/
theorem static_init_claims (pool : pool_t w α) (buffer : List α) (size : Nat)
    (hsz : size ≠ 0) (hfree : pool.rbufs_number < MAX_RBUFS)
    (hlen : pool.rbuf_array.length = MAX_RBUFS) :
    ∃ pool', ring_buf_static_init pool buffer size = some (pool', some pool.rbufs_number) ∧
      pool'.rbufs_number = pool.rbufs_number + 1 ∧
      pool'.rbuf_array.length = MAX_RBUFS ∧
      pool'.rbuf_array[pool.rbufs_number]? = some ⟨buffer, 0, 0, size, false⟩ ∧
      ∀ j, j ≠ pool.rbufs_number → pool'.rbuf_array[j]? = pool.rbuf_array[j]? := by
  have hlt : pool.rbufs_number < pool.rbuf_array.length := by omega
  have hmod : pool.rbufs_number + 1 < 65536 := by
    unfold MAX_RBUFS at hfree
    omega
  refine ⟨⟨pool.rbuf_array.set pool.rbufs_number ⟨buffer, 0, 0, size, false⟩,
    pool.rbufs_number + 1⟩, ?_, rfl, ?_, ?_, ?_⟩
  · simp [ring_buf_static_init, hsz, hfree, List.getElem?_eq_getElem hlt, ring_buf_reset,
      ring_buf_empty, ring_buf_full, hmod]
  · simp [hlen]
  · exact List.getElem?_set_self hlt
  · intro j hj
    exact List.getElem?_set_ne (Ne.symm hj)

/-- A call of `ring_buf_static_init` on an exhausted pool returns `NULL` and
leaves the pool as it was. -/
theorem static_init_exhausted (pool : pool_t w α) (buffer : List α) (size : Nat)
    (hsz : size ≠ 0) (hfull : MAX_RBUFS ≤ pool.rbufs_number) :
    ring_buf_static_init pool buffer size = some (pool, none) := by
  have : ¬ MAX_RBUFS > pool.rbufs_number := by omega
  simp [ring_buf_static_init, hsz, this]

theorem static_init_all_exhausted (reqs : List (List α × Nat)) :
    ∀ (pool : pool_t w α), MAX_RBUFS ≤ pool.rbufs_number → (∀ r, r ∈ reqs → r.2 ≠ 0) →
      static_init_all pool reqs = some (pool, List.replicate reqs.length none) := by
  induction reqs with
  | nil =>
    intro pool _ _
    rfl
  | cons r reqs ih =>
    intro pool hfull hsz
    obtain ⟨buffer, size⟩ := r
    have h1 := static_init_exhausted pool buffer size (hsz (buffer, size) (by simp)) hfull
    have h2 := ih pool hfull (fun r hr => hsz r (List.mem_cons_of_mem _ hr))
    simp [static_init_all, h1, h2, List.replicate_succ]

/-- C15. Static-pool exhaustion: starting from the initial pool, the first
`MAX_RBUFS` (= 2) calls of `ring_buf_static_init` with `size > 0` succeed and
claim the slots 0, 1 in order; the next call and every later one returns `NULL`
and leaves the claimed-slot count and the claimed control structures unchanged.
The single-call facts hold for every pool state. -/
theorem C15_static_pool_exhaustion :
    (∀ (reqs : List (List α × Nat)), (∀ r, r ∈ reqs → r.2 ≠ 0) → MAX_RBUFS ≤ reqs.length →
      ∃ pool' : pool_t w α,
        static_init_all (pool_init w α) reqs
          = some (pool', (List.range MAX_RBUFS).map some
              ++ List.replicate (reqs.length - MAX_RBUFS) none) ∧
        pool'.rbufs_number = MAX_RBUFS ∧
        pool'.rbuf_array
          = (reqs.take MAX_RBUFS).map (fun r => (⟨r.1, 0, 0, r.2, false⟩ : ring_buf_t w α)) ∧
        static_init_all (pool_init w α) (reqs.take MAX_RBUFS)
          = some (pool', (List.range MAX_RBUFS).map some)) ∧
    (∀ (pool : pool_t w α) (buffer : List α) (size : Nat), size ≠ 0 →
      pool.rbufs_number < MAX_RBUFS → pool.rbuf_array.length = MAX_RBUFS →
      ∃ pool', ring_buf_static_init pool buffer size = some (pool', some pool.rbufs_number) ∧
        pool'.rbufs_number = pool.rbufs_number + 1 ∧
        pool'.rbuf_array[pool.rbufs_number]? = some ⟨buffer, 0, 0, size, false⟩ ∧
        ∀ j, j ≠ pool.rbufs_number → pool'.rbuf_array[j]? = pool.rbuf_array[j]?) ∧
    (∀ (pool : pool_t w α) (buffer : List α) (size : Nat), size ≠ 0 →
      MAX_RBUFS ≤ pool.rbufs_number →
      ring_buf_static_init pool buffer size = some (pool, none)) := by
  refine ⟨?_, ?_, ?_⟩
  · intro reqs hsz hlen
    match reqs, hsz, hlen with
    | [], _, hlen => exact absurd hlen (by simp [MAX_RBUFS])
    | [_], _, hlen => exact absurd hlen (by simp [MAX_RBUFS])
    | (b1, s1) :: (b2, s2) :: rest, hsz, _ =>
      have hs1 : s1 ≠ 0 := hsz (b1, s1) (by simp)
      have hs2 : s2 ≠ 0 := hsz (b2, s2) (by simp)
      have h1 : ring_buf_static_init (pool_init w α) b1 s1
          = some (⟨[⟨b1, 0, 0, s1, false⟩, ⟨[], 0, 0, 0, false⟩], 1⟩, some 0) := by
        simp [ring_buf_static_init, hs1, pool_init, MAX_RBUFS, ring_buf_reset, ring_buf_empty,
          ring_buf_full, List.replicate]
      have h2 : ring_buf_static_init
          (⟨[⟨b1, 0, 0, s1, false⟩, ⟨[], 0, 0, 0, false⟩], 1⟩ : pool_t w α) b2 s2
          = some (⟨[⟨b1, 0, 0, s1, false⟩, ⟨b2, 0, 0, s2, false⟩], 2⟩, some 1) := by
        simp [ring_buf_static_init, hs2, MAX_RBUFS, ring_buf_reset, ring_buf_empty,
          ring_buf_full]
      have h3 := static_init_all_exhausted rest
        (⟨[⟨b1, 0, 0, s1, false⟩, ⟨b2, 0, 0, s2, false⟩], 2⟩ : pool_t w α)
        (Nat.le_refl 2) (fun r hr => hsz r (by simp [hr]))
      refine ⟨⟨[⟨b1, 0, 0, s1, false⟩, ⟨b2, 0, 0, s2, false⟩], 2⟩, ?_, rfl, ?_, ?_⟩
      · simp [static_init_all, h1, h2, h3, MAX_RBUFS, List.range_succ]
      · simp [MAX_RBUFS]
      · simp [static_init_all, h1, h2, MAX_RBUFS, List.range_succ]
  · intro pool buffer size hsz hfree hlen
    obtain ⟨pool', h1, h2, _, h4, h5⟩ := static_init_claims pool buffer size hsz hfree hlen
    exact ⟨pool', h1, h2, h4, h5⟩
  · intro pool buffer size hsz hfull
    exact static_init_exhausted pool buffer size hsz hfull

/-- Witness for C15: four construction requests on the initial pool; the first
two get slots 0 and 1, the last two get `NULL`. -/
theorem C15_static_pool_exhaustion_witness :
    ∃ pool' : pool_t 8 Nat,
      static_init_all (pool_init 8 Nat) [([0, 0], 2), ([0], 1), ([0, 0, 0], 3), ([0], 1)]
        = some (pool', (List.range MAX_RBUFS).map some
            ++ List.replicate
              ([([0, 0], 2), ([0], 1), ([0, 0, 0], 3), ([0], 1)].length - MAX_RBUFS) none) ∧
      pool'.rbufs_number = MAX_RBUFS ∧
      pool'.rbuf_array
        = ([([0, 0], 2), ([0], 1), ([0, 0, 0], 3), ([0], 1)].take MAX_RBUFS).map
            (fun r => (⟨r.1, 0, 0, r.2, false⟩ : ring_buf_t 8 Nat)) ∧
      static_init_all (pool_init 8 Nat)
          ([([0, 0], 2), ([0], 1), ([0, 0, 0], 3), ([0], 1)].take MAX_RBUFS)
        = some (pool', (List.range MAX_RBUFS).map some) :=
  (C15_static_pool_exhaustion.1) [([0, 0], 2), ([0], 1), ([0, 0, 0], 3), ([0], 1)]
    (by decide) (by decide)

/-! ## Reset, emptiness and the size formula -/

theorem size_t_sub_self_zero (w : Nat) : size_t_sub w 0 0 = 0 := by
  simp [size_t_sub]

theorem size_reset (me : ring_buf_t w α) : ring_buf_size (ring_buf_reset me) = 0 := by
  simp [ring_buf_size, ring_buf_reset, ring_buf_full, size_t_sub_self_zero]

/-- C16. Reset leaves the buffer in the empty state `head = 0`, `tail = 0`,
`full = false`, so `ring_buf_empty` is true and `ring_buf_size` is `0`, and it
leaves the capacity and every storage slot unchanged.  Every successful
construction ends in that state with the storage and capacity it was given, and
both constructors do succeed for `size > 0`: the `assert` after the reset cannot
fail. -/
theorem C16_reset_and_construction_empty :
    (∀ (me : ring_buf_t w α),
      (ring_buf_reset me).head = 0 ∧ (ring_buf_reset me).tail = 0 ∧
      (ring_buf_reset me).full = false ∧ ring_buf_empty (ring_buf_reset me) = true ∧
      ring_buf_size (ring_buf_reset me) = 0 ∧
      ring_buf_capacity (ring_buf_reset me) = ring_buf_capacity me ∧
      (ring_buf_reset me).buffer = me.buffer) ∧
    (∀ (me : ring_buf_t w α) (buffer : List α) (size : Nat), constructed me buffer size →
      me.head = 0 ∧ me.tail = 0 ∧ me.full = false ∧ ring_buf_empty me = true ∧
      ring_buf_size me = 0 ∧ me.buffer = buffer ∧ ring_buf_capacity me = size) ∧
    (∀ (raw : ring_buf_t w α) (buffer : List α) (size : Nat), size ≠ 0 →
      ring_buf_dynamic_init (some raw) buffer size = some ⟨buffer, 0, 0, size, false⟩) ∧
    (∀ (pool : pool_t w α) (buffer : List α) (size : Nat), size ≠ 0 →
      pool.rbufs_number < MAX_RBUFS → pool.rbuf_array.length = MAX_RBUFS →
      ∃ pool', ring_buf_static_init pool buffer size = some (pool', some pool.rbufs_number) ∧
        pool'.rbuf_array[pool.rbufs_number]? = some ⟨buffer, 0, 0, size, false⟩) := by
  refine ⟨?_, ?_, ?_, ?_⟩
  · intro me
    exact ⟨rfl, rfl, rfl, by simp [ring_buf_empty, ring_buf_full, ring_buf_reset],
      size_reset me, rfl, rfl⟩
  · intro me buffer size hc
    obtain ⟨hb, hm, hh, ht, hf, _⟩ := constructed_fresh me buffer size hc
    refine ⟨hh, ht, hf, by simp [ring_buf_empty, ring_buf_full, hf, hh, ht], ?_, hb, hm⟩
    simp [ring_buf_size, ring_buf_full, hf, hh, ht, size_t_sub_self_zero]
  · intro raw buffer size hsz
    simp [ring_buf_dynamic_init, hsz, ring_buf_reset, ring_buf_empty, ring_buf_full]
  · intro pool buffer size hsz hfree hlen
    obtain ⟨pool', h1, _, _, h4, _⟩ := static_init_claims pool buffer size hsz hfree hlen
    exact ⟨pool', h1, h4⟩

/-- Witness for C16: reset of a full capacity-3 buffer, and a dynamic
construction over three slots holding stale data. -/
theorem C16_reset_and_construction_empty_witness :
    ring_buf_reset (⟨[4, 5, 6], 2, 2, 3, true⟩ : ring_buf_t 8 Nat) = ⟨[4, 5, 6], 0, 0, 3, false⟩ ∧
      ring_buf_size (ring_buf_reset (⟨[4, 5, 6], 2, 2, 3, true⟩ : ring_buf_t 8 Nat)) = 0 ∧
      ring_buf_dynamic_init (some (⟨[], 9, 9, 9, true⟩ : ring_buf_t 8 Nat)) [4, 5, 6] 3
        = some ⟨[4, 5, 6], 0, 0, 3, false⟩ :=
  ⟨by decide, (C16_reset_and_construction_empty.1 ⟨[4, 5, 6], 2, 2, 3, true⟩).2.2.2.2.1,
    C16_reset_and_construction_empty.2.2.1 ⟨[], 9, 9, 9, true⟩ [4, 5, 6] 3 (by decide)⟩

/-- C17. For every buffer state whatsoever, `ring_buf_empty` and `ring_buf_full`
are never both true. -/
theorem C17_not_empty_and_full (me : ring_buf_t w α) :
    ¬ (ring_buf_empty me = true ∧ ring_buf_full me = true) ∧
      (ring_buf_empty me && ring_buf_full me) = false := by
  unfold ring_buf_empty ring_buf_full
  cases me.full <;> simp

/-- C18. Size formula: for every state with `head < capacity`, `tail < capacity`
(the capacity being a `size_t` value), `ring_buf_size`, as computed in `size_t`
arithmetic modulo `2 ^ w`, returns the capacity when `full` is set and otherwise
the mathematical `(head - tail) mod capacity`, which is below the capacity; in
the branches of the code this is `head - tail` when `head ≥ tail` and
`capacity + head - tail` otherwise, also when `capacity + head` wraps. -/
theorem C18_size_formula (me : ring_buf_t w α) (hh : me.head < me.max) (ht : me.tail < me.max)
    (hrep : me.max < 2 ^ w) :
    (me.full = true → ring_buf_size me = ring_buf_capacity me) ∧
    (me.full = false →
      ((ring_buf_size me : Nat) : Int) = ((me.head : Int) - (me.tail : Int)) % (me.max : Int) ∧
      ring_buf_size me = (me.max + me.head - me.tail) % me.max ∧
      ring_buf_size me < ring_buf_capacity me ∧
      (me.tail ≤ me.head → ring_buf_size me = me.head - me.tail) ∧
      (me.head < me.tail → ring_buf_size me = me.max + me.head - me.tail)) ∧
    ring_buf_size me ≤ ring_buf_capacity me := by
  have hs := size_eq_range me hrep ⟨hh, ht⟩
  unfold ring_buf_capacity
  refine ⟨?_, ?_, ?_⟩
  · intro hf
    rw [hs]
    simp [hf]
  · intro hf
    simp only [hf, Bool.false_eq_true, if_false] at hs
    by_cases hle : me.tail ≤ me.head
    · simp only [hle, if_true] at hs
      refine ⟨?_, ?_, by omega, fun _ => hs, fun hlt => by omega⟩
      · rw [Int.emod_eq_of_lt (by omega) (by omega), hs]
        omega
      · rw [mod_wrap _ _ (by omega), hs]
        split <;> omega
    · simp only [hle, if_false] at hs
      refine ⟨?_, ?_, by omega, fun hle' => absurd hle' hle, fun _ => hs⟩
      · rw [← Int.add_emod_self, Int.emod_eq_of_lt (by omega) (by omega), hs]
        omega
      · rw [mod_wrap _ _ (by omega), hs]
        split <;> omega
  · rw [hs]
    split_ifs <;> omega

/-- Witness for C18: an 8-bit `size_t`, capacity 255, `head = 3`, `tail = 254`:
`capacity + head = 258` wraps to `2`, and the size is `(3 - 254) mod 255 = 4`. -/
theorem C18_size_formula_witness :
    size_t_add 8 255 3 = 2 ∧
      ring_buf_size (⟨List.replicate 255 0, 3, 254, 255, false⟩ : ring_buf_t 8 Nat) = 4 ∧
      ((ring_buf_size (⟨List.replicate 255 0, 3, 254, 255, false⟩ : ring_buf_t 8 Nat) : Nat) : Int)
        = (((3 : Nat) : Int) - ((254 : Nat) : Int)) % ((255 : Nat) : Int) :=
  ⟨by decide, by decide,
    ((C18_size_formula ⟨List.replicate 255 0, 3, 254, 255, false⟩
      (by decide) (by decide) (by decide)).2.1 rfl).1⟩

/-! ## Refinement to a bounded queue -/

/-- A completed look-ahead loop of `n` iterations on a buffer holding `l` wrote
the first `n` elements of `l` and nothing else. -/
theorem peek_loop_holds (me : ring_buf_t w α) (l data out : List α) (n : Nat) (d : α)
    (h : wf me) (hl : holds me l) (hn : n ≤ l.length)
    (hloop : ring_buf_peek_loop me n 0 me.tail data = some out) :
    out = l.take n ++ data.drop n := by
  have hsz : n ≤ ring_buf_size me := by rw [← hl.1]; exact hn
  obtain ⟨vals, me2, hlen, hres, hgets⟩ := peek_loop_get n me 0 data out d h hsz hloop
  have hsplit : holds me (l.take n ++ l.drop n) := by
    rw [List.take_append_drop]
    exact hl
  obtain ⟨me3, hgets3, _, _, _⟩ := get_n_holds (l.take n) me (l.drop n) d h hsplit
  have hlt : (l.take n).length = n := by
    rw [List.length_take]
    omega
  rw [hlt, hgets] at hgets3
  simp only [Option.some.injEq, Prod.mk.injEq] at hgets3
  have hinj : Function.Injective (fun v : α => ((0 : Int), v)) := by
    intro a b hab
    simp only [Prod.mk.injEq, true_and] at hab
    exact hab
  have hvals : vals = l.take n := List.map_injective_iff.2 hinj hgets3.1
  rw [hres, hvals]
  simp

theorem contents_nonempty (me : ring_buf_t w α) (h : wf me)
    (hpos : 0 < ring_buf_size me) : ∃ x l, contents me = x :: l := by
  have hlen := (holds_contents me h).1
  cases hc : contents me with
  | nil =>
    rw [hc] at hlen
    simp only [List.length_nil] at hlen
    omega
  | cons x l => exact ⟨x, l, rfl⟩

/-- C19. Refinement to a bounded queue.  With `contents` the list of the slots
`storage[(tail + i) mod capacity]`, `i < ring_buf_size`, on every well-formed
state: a successful `ring_buf_try_put` and `ring_buf_put` on a not full buffer
append the value; `ring_buf_put` on a full buffer drops the first element and
appends the value; a successful `ring_buf_get` returns the first element and
leaves the rest; `ring_buf_reset` gives the empty list; a successful
`ring_buf_peek` with count `n` outputs the first `n` elements and changes
nothing; rejected calls change nothing.  Each operation again ends in a
well-formed state. -/
theorem C19_refines_bounded_queue (me : ring_buf_t w α) (v d : α) (h : wf me) :
    ((contents me).length = ring_buf_size me ∧
      ∀ i, i < ring_buf_size me → (contents me)[i]? = me.buffer[(me.tail + i) % me.max]?) ∧
    (me.full = false → ∃ me', ring_buf_try_put me v = some (0, me') ∧ wf me' ∧
      contents me' = contents me ++ [v]) ∧
    (me.full = false → ∃ me', ring_buf_put me v = some me' ∧ wf me' ∧
      contents me' = contents me ++ [v]) ∧
    (me.full = true → ∃ me', ring_buf_put me v = some me' ∧ wf me' ∧
      contents me' = (contents me).tail ++ [v] ∧
      (contents me').length = (contents me).length) ∧
    (ring_buf_empty me = false → ∃ x me', ring_buf_get me d = some (0, me', x) ∧ wf me' ∧
      (contents me).head? = some x ∧ contents me' = (contents me).tail) ∧
    (wf (ring_buf_reset me) ∧ contents (ring_buf_reset me) = []) ∧
    (∀ (data : List α) (n : Nat), ring_buf_empty me = false → n ≤ ring_buf_size me →
      n ≤ data.length →
      ring_buf_peek me data n = some (0, me, (contents me).take n ++ data.drop n)) ∧
    (∀ (data out : List α) (n : Nat) (me' : ring_buf_t w α),
      ring_buf_peek me data n = some (0, me', out) →
      me' = me ∧ out = (contents me).take n ++ data.drop n) ∧
    (me.full = true → ring_buf_try_put me v = some (-1, me)) ∧
    (ring_buf_empty me = true → ring_buf_get me d = some (-1, me, d)) := by
  have hc := holds_contents me h
  refine ⟨⟨hc.1, ?_⟩, ?_, ?_, ?_, ?_, ?_, ?_, ?_, ?_, ?_⟩
  · intro i hi
    exact hc.2 i (by rw [hc.1]; exact hi)
  · intro hf
    obtain ⟨me', hput, hwf', hl', _⟩ := holds_try_put me v (contents me) h hf hc
    exact ⟨me', hput, hwf', contents_eq_of_holds me' _ hwf' hl'⟩
  · intro hf
    obtain ⟨me', hput, hwf', hl', _⟩ := holds_put_not_full me v (contents me) h hf hc
    exact ⟨me', hput, hwf', contents_eq_of_holds me' _ hwf' hl'⟩
  · intro hf
    have hpos : 0 < ring_buf_size me := by
      rw [(full_iff_size_capacity me h).1 hf]
      exact h.cap_pos
    obtain ⟨x, l, hxl⟩ := contents_nonempty me h hpos
    rw [hxl] at hc
    obtain ⟨me', hput, hwf', hl', _, _⟩ := holds_put_full me v x l h hf hc
    refine ⟨me', hput, hwf', ?_, ?_⟩
    · rw [contents_eq_of_holds me' _ hwf' hl', hxl]
      rfl
    · rw [contents_eq_of_holds me' _ hwf' hl', hxl]
      simp
  · intro hne
    have hpos : 0 < ring_buf_size me := by
      cases hz : ring_buf_size me with
      | zero =>
        rw [(empty_iff_size_zero me h).2 hz] at hne
        exact absurd hne (by simp)
      | succ k => omega
    obtain ⟨x, l, hxl⟩ := contents_nonempty me h hpos
    rw [hxl] at hc
    obtain ⟨me', hget, hwf', hl', _, _⟩ := holds_get me d x l h hc
    refine ⟨x, me', hget, hwf', by rw [hxl]; rfl, ?_⟩
    rw [contents_eq_of_holds me' _ hwf' hl', hxl]
    rfl
  · refine ⟨wf_reset me h, ?_⟩
    unfold contents
    rw [size_reset]
    rfl
  · intro data n hne hn hroom
    exact holds_peek me (contents me) data n h hc hne (by rw [hc.1]; exact hn) hroom
  · intro data out n me' hp
    unfold ring_buf_peek at hp
    split at hp
    · simp at hp
    · next hcond =>
      simp only [Bool.or_eq_true, decide_eq_true_eq, not_or, Bool.not_eq_true, not_lt] at hcond
      cases hloop : ring_buf_peek_loop me n 0 me.tail data with
      | none =>
        rw [hloop] at hp
        exact absurd hp (by simp)
      | some res =>
        rw [hloop] at hp
        simp only [Option.some.injEq, Prod.mk.injEq, true_and] at hp
        obtain ⟨hme, hout⟩ := hp
        subst hme
        subst hout
        exact ⟨rfl, peek_loop_holds me (contents me) data res n d h hc
          (by rw [hc.1]; exact hcond.2) hloop⟩
  · intro hf
    simp [ring_buf_try_put, ring_buf_full, hf]
  · intro he
    simp [ring_buf_get, he]

/-- Witness for C19: a full capacity-3 buffer with contents `[6, 4, 5]` (tail on
the last slot); put of 9 gives `[4, 5, 9]`, get returns 6 and leaves `[4, 5]`. -/
theorem C19_refines_bounded_queue_witness :
    contents (⟨[4, 5, 6], 2, 2, 3, true⟩ : ring_buf_t 8 Nat) = [6, 4, 5] ∧
      (∃ me', ring_buf_put (⟨[4, 5, 6], 2, 2, 3, true⟩ : ring_buf_t 8 Nat) 9 = some me' ∧
        wf me' ∧
        contents me' = (contents (⟨[4, 5, 6], 2, 2, 3, true⟩ : ring_buf_t 8 Nat)).tail ++ [9] ∧
        (contents me').length
          = (contents (⟨[4, 5, 6], 2, 2, 3, true⟩ : ring_buf_t 8 Nat)).length) ∧
      (∃ x me', ring_buf_get (⟨[4, 5, 6], 2, 2, 3, true⟩ : ring_buf_t 8 Nat) 0
          = some (0, me', x) ∧ wf me' ∧
        (contents (⟨[4, 5, 6], 2, 2, 3, true⟩ : ring_buf_t 8 Nat)).head? = some x ∧
        contents me' = (contents (⟨[4, 5, 6], 2, 2, 3, true⟩ : ring_buf_t 8 Nat)).tail) :=
  ⟨by decide,
    (C19_refines_bounded_queue ⟨[4, 5, 6], 2, 2, 3, true⟩ 9 0
      ⟨by decide, by decide, by decide, by decide, by decide, by decide⟩).2.2.2.1 (by decide),
    (C19_refines_bounded_queue ⟨[4, 5, 6], 2, 2, 3, true⟩ 9 0
      ⟨by decide, by decide, by decide, by decide, by decide, by decide⟩).2.2.2.2.1
      (by decide)⟩

/-! ## In-bounds access -/

/-- The look-ahead loop keeps the length of the output array and writes only
the indices `i .. i + k - 1`. -/
theorem peek_loop_frame (me : ring_buf_t w α) (k : Nat) :
    ∀ (i pos : Nat) (data out : List α), ring_buf_peek_loop me k i pos data = some out →
      out.length = data.length ∧ ∀ j, (j < i ∨ i + k ≤ j) → out[j]? = data[j]? := by
  induction k with
  | zero =>
    intro i pos data out hloop
    simp only [ring_buf_peek_loop, Option.some.injEq] at hloop
    rw [← hloop]
    exact ⟨rfl, fun _ _ => rfl⟩
  | succ k ih =>
    intro i pos data out hloop
    simp only [ring_buf_peek_loop] at hloop
    cases hx : me.buffer[pos]? with
    | none =>
      rw [hx] at hloop
      exact absurd hloop (by simp)
    | some x =>
      rw [hx] at hloop
      simp only at hloop
      split at hloop
      · obtain ⟨hlen, hframe⟩ := ih (i + 1) _ (data.set i x) out hloop
        refine ⟨by rw [hlen, List.length_set], ?_⟩
        intro j hj
        rw [hframe j (by omega), List.getElem?_set_ne (by omega)]
      · exact absurd hloop (by simp)

/-- Iteration `j` of a completed look-ahead loop read the storage slot reached
from the start position by `j` index advances, and wrote it to output index
`i + j`. -/
theorem peek_loop_reads (me : ring_buf_t w α) (k : Nat) :
    ∀ (i pos : Nat) (data out : List α), ring_buf_peek_loop me k i pos data = some out →
      ∀ j, j < k → ∃ x,
        me.buffer[(fun p => advance_headtail_value w p me.max)^[j] pos]? = some x ∧
        out[i + j]? = some x := by
  induction k with
  | zero =>
    intro i pos data out _ j hj
    omega
  | succ k ih =>
    intro i pos data out hloop j hj
    simp only [ring_buf_peek_loop] at hloop
    cases hx : me.buffer[pos]? with
    | none =>
      rw [hx] at hloop
      exact absurd hloop (by simp)
    | some x =>
      rw [hx] at hloop
      simp only at hloop
      split at hloop
      · next hi =>
        cases j with
        | zero =>
          refine ⟨x, by simpa using hx, ?_⟩
          obtain ⟨_, hframe⟩ := peek_loop_frame me k (i + 1) _ (data.set i x) out hloop
          rw [Nat.add_zero, hframe i (by omega), List.getElem?_set_self hi]
        | succ j =>
          obtain ⟨y, hy, hout⟩ := ih (i + 1) _ (data.set i x) out hloop j (by omega)
          refine ⟨y, ?_, ?_⟩
          · rw [Function.iterate_succ_apply]
            exact hy
          · have : i + (j + 1) = i + 1 + j := by omega
            rw [this]
            exact hout
      · exact absurd hloop (by simp)

theorem advance_iterate_lt (w max : Nat) (j : Nat) :
    ∀ pos, pos < max → (fun p => advance_headtail_value w p max)^[j] pos < max := by
  induction j with
  | zero =>
    intro pos hpos
    exact hpos
  | succ j ih =>
    intro pos hpos
    rw [Function.iterate_succ_apply]
    exact ih _ (advance_lt w pos max hpos)

/-- C20. In-bounds storage access: on every state whose capacity equals the
storage length, with `head` and `tail` below the capacity (so that the capacity
is at least 1), the slot written by `ring_buf_put` / `ring_buf_try_put` (index `head`) and the slot
read by `ring_buf_get` (index `tail`) exist, so these calls are defined; every
iteration `j` of the loop of `ring_buf_peek` reads the slot `j` index advances
after `tail`, which is below the capacity, for any look-ahead count; and
`ring_buf_peek` keeps the length of the output array and leaves every output
index from the count on untouched.  `ring_buf_peek` can only be undefined when
the output array is shorter than the count. -/
theorem C20_in_bounds_access (me : ring_buf_t w α)
    (hlen : me.max = me.buffer.length) (hh : me.head < me.max) (ht : me.tail < me.max) :
    1 ≤ ring_buf_capacity me ∧
    (∀ v, me.head < me.buffer.length ∧ me.head < ring_buf_capacity me ∧
      ∃ me', ring_buf_put me v = some me') ∧
    (∀ v, ∃ r me', ring_buf_try_put me v = some (r, me')) ∧
    (∀ d, me.tail < me.buffer.length ∧ me.tail < ring_buf_capacity me ∧
      ∃ r me' x, ring_buf_get me d = some (r, me', x)) ∧
    (∀ j, (fun p => advance_headtail_value w p me.max)^[j] me.tail < ring_buf_capacity me) ∧
    (∀ (data : List α) (n : Nat), n ≤ data.length →
      ∃ r out, ring_buf_peek me data n = some (r, me, out)) ∧
    (∀ (data : List α) (n : Nat), ring_buf_peek me data n = none → data.length < n) ∧
    (∀ (data out : List α) (n : Nat) (r : Int) (me' : ring_buf_t w α),
      ring_buf_peek me data n = some (r, me', out) →
      out.length = data.length ∧ (∀ j, n ≤ j → out[j]? = data[j]?) ∧
      (r = 0 → ∀ j, j < n → ∃ x,
        me.buffer[(fun p => advance_headtail_value w p me.max)^[j] me.tail]? = some x ∧
        (fun p => advance_headtail_value w p me.max)^[j] me.tail < ring_buf_capacity me ∧
        out[j]? = some x)) := by
  have hst : me.max ≤ me.buffer.length := by omega
  have hdef : ∀ (data : List α) (n : Nat), n ≤ data.length →
      ∃ r out, ring_buf_peek me data n = some (r, me, out) := by
    intro data n hn
    obtain ⟨out, hout, _⟩ := peek_loop_defined me hst n 0 me.tail data ht (by omega)
    unfold ring_buf_peek
    split
    · exact ⟨-1, data, rfl⟩
    · exact ⟨0, out, by rw [hout]⟩
  refine ⟨by unfold ring_buf_capacity; omega, ?_, ?_, ?_, ?_, hdef, ?_, ?_⟩
  · intro v
    refine ⟨by omega, hh, ?_⟩
    have hin : me.head < me.buffer.length := by omega
    exact ⟨_, by rw [ring_buf_put, if_pos hin]⟩
  · intro v
    cases hf : me.full
    · exact ⟨0, _, try_put_not_full me v hf (by omega)⟩
    · exact ⟨-1, me, by simp [ring_buf_try_put, ring_buf_full, hf]⟩
  · intro d
    have hin : me.tail < me.buffer.length := by omega
    refine ⟨hin, ht, ?_⟩
    cases he : ring_buf_empty me
    · exact ⟨0, _, me.buffer[me.tail],
        get_not_empty me d _ he (List.getElem?_eq_getElem hin)⟩
    · exact ⟨-1, me, d, by simp [ring_buf_get, he]⟩
  · intro j
    exact advance_iterate_lt w me.max j me.tail ht
  · intro data n hnone
    by_contra hge
    obtain ⟨r, out, hsome⟩ := hdef data n (by omega)
    rw [hsome] at hnone
    exact absurd hnone (by simp)
  · intro data out n r me' hp
    unfold ring_buf_peek at hp
    split at hp
    · simp only [Option.some.injEq, Prod.mk.injEq] at hp
      obtain ⟨hr, _, hout⟩ := hp
      rw [← hout, ← hr]
      exact ⟨rfl, fun _ _ => rfl, fun h0 => absurd h0 (by decide)⟩
    · cases hloop : ring_buf_peek_loop me n 0 me.tail data with
      | none =>
        rw [hloop] at hp
        exact absurd hp (by simp)
      | some res =>
        rw [hloop] at hp
        simp only [Option.some.injEq, Prod.mk.injEq] at hp
        obtain ⟨_, _, hout⟩ := hp
        rw [← hout]
        obtain ⟨hl, hframe⟩ := peek_loop_frame me n 0 me.tail data res hloop
        refine ⟨hl, fun j hj => hframe j (by omega), ?_⟩
        intro _ j hj
        obtain ⟨x, hx, hox⟩ := peek_loop_reads me n 0 me.tail data res hloop j hj
        rw [Nat.zero_add] at hox
        exact ⟨x, hx, advance_iterate_lt w me.max j me.tail ht, hox⟩

/-- Witness for C20: a full capacity-3 buffer with both indices on the last
slot; every call is defined, and a look-ahead of 3 into a four-slot output
array wraps around the storage and leaves the fourth output slot alone. -/
theorem C20_in_bounds_access_witness :
    (∃ me', ring_buf_put (⟨[4, 5, 6], 2, 2, 3, true⟩ : ring_buf_t 8 Nat) 9 = some me') ∧
      (∃ r me' x, ring_buf_get (⟨[4, 5, 6], 2, 2, 3, true⟩ : ring_buf_t 8 Nat) 0
        = some (r, me', x)) ∧
      (∃ r out, ring_buf_peek (⟨[4, 5, 6], 2, 2, 3, true⟩ : ring_buf_t 8 Nat) [0, 0, 0, 7] 3
        = some (r, ⟨[4, 5, 6], 2, 2, 3, true⟩, out)) ∧
      ring_buf_peek (⟨[4, 5, 6], 2, 2, 3, true⟩ : ring_buf_t 8 Nat) [0, 0, 0, 7] 3
        = some (0, ⟨[4, 5, 6], 2, 2, 3, true⟩, [6, 4, 5, 7]) :=
  ⟨((C20_in_bounds_access ⟨[4, 5, 6], 2, 2, 3, true⟩
      (by decide) (by decide) (by decide)).2.1 9).2.2,
    ((C20_in_bounds_access ⟨[4, 5, 6], 2, 2, 3, true⟩
      (by decide) (by decide) (by decide)).2.2.2.1 0).2.2,
    (C20_in_bounds_access ⟨[4, 5, 6], 2, 2, 3, true⟩
      (by decide) (by decide) (by decide)).2.2.2.2.2.1 [0, 0, 0, 7] 3 (by decide),
    by decide⟩

end RingBufFloat
